import Mathlib

/-!
Verification development for the HtmlSlotCompiler repository
(src/rust/src/main.rs).  The program text is embedded shallowly: strings are
lists of characters, the fixed regular-expression shapes used by the source
(`determine_closing_style`, `strip_attribute`, `Compiler::merge_slot_string`)
are embedded as direct scanners implementing the leftmost-first match
semantics of those concrete patterns, and the pure text pipeline of
`Compiler::build_once` (normalization, line-ending restoration, unknown-slot
handling, rebuild classification, asset diffing) is embedded as pure
functions over explicit inputs.  The HTML parser, the filesystem and the
digest primitive are external collaborators of the program; they enter the
model as explicit data or opaque parameters.
-/

set_option maxHeartbeats 1000000

namespace HtmlSlot

/-- Texts are modelled as lists of characters (one `Char` per scalar value;
the inputs of interest are ASCII, where this coincides with the byte view
the Rust code takes). -/
abbrev Str := List Char

/-- Word characters for the regex word-boundary assertion (ASCII fragment of
the word class used by the `\b` assertions in the source patterns). -/
def isWordChar (c : Char) : Bool := c.isAlphanum || c == '_'

/-- Whitespace characters recognized by the regex whitespace class and by
Rust `trim_end` (ASCII fragment). -/
def isWsChar (c : Char) : Bool :=
  c == ' ' || c == '\t' || c == '\n' || c == '\r' || c == '\x0b' || c == '\x0c'

/-- Case-insensitive literal matcher: when the text starts with the pattern
ignoring case, splits off the actually matched text characters. -/
def splitCI : Str → Str → Option (Str × Str)
  | [], s => some ([], s)
  | _ :: _, [] => none
  | p :: ps, c :: cs =>
    if p.toLower = c.toLower then
      match splitCI ps cs with
      | some (m, r) => some (c :: m, r)
      | none => none
    else none

/-- Splits one character satisfying a test from the front of the text. -/
def splitChar (p : Char → Bool) : Str → Option (Char × Str)
  | [] => none
  | c :: cs => if p c then some (c, cs) else none

def slotLit : Str := ("slot").data

def slotModeLit : Str := ("slot-mode").data

def forSlotLit : Str := ("for-slot").data

def attrColon : Str := ("attr:").data

def textLit : Str := ("text").data

def slashGt : Str := ("/>").data

/-- Exact (case-sensitive) literal pattern test at the front of a text. -/
def startsWithStr : Str → Str → Bool
  | [], _ => true
  | _ :: _, [] => false
  | p :: ps, c :: cs => p == c && startsWithStr ps cs

/-- Exact literal pattern test at the end of a text. -/
def endsWithStr (p s : Str) : Bool := startsWithStr p.reverse s.reverse

/-- Exact substring test. -/
def containsStr (pat : Str) : Str → Bool
  | [] => startsWithStr pat []
  | c :: cs => startsWithStr pat (c :: cs) || containsStr pat cs

/-- Parses the literal slot-attribute assignment inside the slot-locator
patterns of the source: the word `slot` (case-insensitively), optional
whitespace, an equals sign, optional whitespace, a quote, the slot name
(case-insensitively), a quote.  Returns the matched text and the rest. -/
def parseSlotAssign (name : Str) (s : Str) : Option (Str × Str) :=
  match splitCI slotLit s with
  | none => none
  | some (a, s1) =>
    let w1 := s1.takeWhile isWsChar
    let s2 := s1.dropWhile isWsChar
    match splitChar (fun c => c == '=') s2 with
    | none => none
    | some (e, s3) =>
      let w2 := s3.takeWhile isWsChar
      let s4 := s3.dropWhile isWsChar
      match splitChar (fun c => c == '"' || c == '\'') s4 with
      | none => none
      | some (q1, s5) =>
        match splitCI name s5 with
        | none => none
        | some (nm, s6) =>
          match splitChar (fun c => c == '"' || c == '\'') s6 with
          | none => none
          | some (q2, s7) =>
            some (a ++ (w1 ++ (e :: (w2 ++ (q1 :: (nm ++ [q2]))))), s7)

/-- Consumes characters up to and including the first occurrence of a stop
character; fails when the stop character is absent.  This is the unique
match of a negated-class star followed by the stop character. -/
def consumeThrough (stop : Char) : Str → Option (Str × Str)
  | [] => none
  | c :: cs =>
    if c = stop then some ([c], cs)
    else
      match consumeThrough stop cs with
      | some (m, r) => some (c :: m, r)
      | none => none

/-- Scans the interior of an opening tag (a run of characters other than a
closing angle bracket) for the slot-attribute assignment, preferring the
rightmost admissible start, exactly as the greedy star before the
word-boundary assertion does in the source patterns; on success returns the
text consumed through the terminating angle bracket, and the rest. -/
def scanSlotInner (name : Str) : Char → Str → Option (Str × Str)
  | _, [] => none
  | prev, c :: cs =>
    let deeper : Option (Str × Str) :=
      if c = '>' then none
      else
        match scanSlotInner name c cs with
        | some (m, r) => some (c :: m, r)
        | none => none
    match deeper with
    | some x => some x
    | none =>
      if isWordChar prev then none
      else
        match parseSlotAssign name (c :: cs) with
        | none => none
        | some (m1, s1) =>
          match consumeThrough '>' s1 with
          | some (m2, r) => some (m1 ++ m2, r)
          | none => none

/-- Anchored match of the opening-tag pattern shared by the slot-locator
regexes of the source: an angle bracket, the tag name (case-insensitively),
a word boundary, then the tag interior containing a quoted slot-attribute
assignment, through the closing angle bracket.  Returns the matched text
(ending in the closing angle bracket) and the rest. -/
def openTagAt (tag name : Str) (s : Str) : Option (Str × Str) :=
  match s with
  | [] => none
  | c :: s1 =>
    if c = '<' then
      match splitCI tag s1 with
      | none => none
      | some (tm, s2) =>
        let prev : Char := (c :: tm).getLast (by simp)
        let bOk : Bool :=
          match s2 with
          | [] => isWordChar prev
          | d :: _ => isWordChar prev != isWordChar d
        if bOk then
          match scanSlotInner name prev s2 with
          | none => none
          | some (m, r) => some (c :: (tm ++ m), r)
        else none
    else none

/-- The closing-tag literal for a tag name. -/
def closePat (tag : Str) : Str := '<' :: '/' :: (tag ++ ['>'])

/-- Leftmost (non-greedy) search for the closing tag, case-insensitively;
returns the skipped interior, the closing-tag text as written, and the
rest. -/
def findCloseTag (tag : Str) : Str → Option (Str × Str × Str)
  | [] => none
  | c :: cs =>
    match splitCI (closePat tag) (c :: cs) with
    | some (ct, r) => some ([], ct, r)
    | none =>
      match findCloseTag tag cs with
      | some (inner, ct, r) => some (c :: inner, ct, r)
      | none => none

/-- One quoted attribute value: a double-quoted or single-quoted literal,
with the double-quoted branch preferred as in the source alternation. -/
def parseQuotedVal (s : Str) : Option (Str × Str) :=
  match splitChar (fun c => c == '"') s with
  | some (q, r) =>
    match consumeThrough '"' r with
    | some (m, r2) => some (q :: m, r2)
    | none => none
  | none =>
    match splitChar (fun c => c == '\'') s with
    | some (q, r) =>
      match consumeThrough '\'' r with
      | some (m, r2) => some (q :: m, r2)
      | none => none
    | none => none

/-- Anchored match of the attribute-stripping pattern of `strip_attribute`:
mandatory whitespace, the attribute name (case-insensitively), optional
whitespace, an equals sign, optional whitespace, a quoted value.  Returns
the rest after the match.  The mandatory whitespace must be the maximal run
(the attribute name does not begin with whitespace), so no backtracking
arises. -/
def stripAttrMatchAt (attr : Str) (s : Str) : Option Str :=
  let w := s.takeWhile isWsChar
  let s1 := s.dropWhile isWsChar
  if w = [] then none
  else
    match splitCI attr s1 with
    | none => none
    | some (_, s2) =>
      let s3 := s2.dropWhile isWsChar
      match splitChar (fun c => c == '=') s3 with
      | none => none
      | some (_, s4) =>
        let s5 := s4.dropWhile isWsChar
        match parseQuotedVal s5 with
        | some (_, r) => some r
        | none => none

/-- Fueled scan for the replace-all of `strip_attribute`; the fuel bounds the
number of scan steps and is instantiated with the text length, which always
suffices because every match consumes at least one character. -/
def stripAttrGo (attr : Str) : Nat → Str → Str
  | _, [] => []
  | 0, s => s
  | fuel + 1, c :: cs =>
    match stripAttrMatchAt attr (c :: cs) with
    | some r => stripAttrGo attr fuel r
    | none => c :: stripAttrGo attr fuel cs

/-- Embeds `strip_attribute` of the source: removes every occurrence of the
quoted attribute assignment (with its leading whitespace) from the
fragment. -/
def strip_attribute (fragment : Str) (attr : Str) : Str :=
  stripAttrGo attr fragment.length fragment

/-- Rust `str::trim_end` on the ASCII fragment. -/
def trimEnd (s : Str) : Str := (s.reverse.dropWhile isWsChar).reverse

/-- The closing-style enumeration of the source. -/
inductive SlotClosingStyle where
  | Explicit
  | SelfClosing
  | Void
deriving DecidableEq, Repr

/-- The slot catalog record of the source. -/
structure SlotSpec where
  name : Str
  mode : Str
  layout_tag : Str
  closing_style : SlotClosingStyle
deriving DecidableEq, Repr

/-- The per-page resolved slot content record of the source; the hash map of
attributes is modelled as an association list with unique keys. -/
structure PageSlotContent where
  tag : Str
  inner_html : Str
  attributes : List (Str × Str)
  original_html : Option Str
  closing_style : SlotClosingStyle
deriving DecidableEq, Repr

def VOID_TAGS : List Str :=
  [("area").data, ("base").data, ("br").data, ("col").data, ("embed").data,
   ("hr").data, ("img").data, ("input").data, ("link").data, ("meta").data,
   ("param").data, ("source").data, ("track").data, ("wbr").data]

def is_void_element (tag : Str) : Bool :=
  VOID_TAGS.contains (tag.map Char.toLower)

/-- Leftmost match of the opening-tag locator over a whole text; returns the
matched text. -/
def findFirstOpen (tag name : Str) : Str → Option Str
  | [] => none
  | c :: cs =>
    match openTagAt tag name (c :: cs) with
    | some (m, _) => some m
    | none => findFirstOpen tag name cs

/-- Embeds `determine_closing_style`: locate the first literal opening tag
carrying the quoted slot attribute in the raw layout text; a trailing
self-closing solidus selects SelfClosing, a void tag name selects Void,
otherwise Explicit. -/
def determine_closing_style (layout_html : Str) (tag : Str) (slot_name : Str) :
    SlotClosingStyle :=
  match findFirstOpen tag slot_name layout_html with
  | some m =>
    if endsWithStr slashGt (trimEnd m) then SlotClosingStyle.SelfClosing
    else if is_void_element tag then SlotClosingStyle.Void
    else SlotClosingStyle.Explicit
  | none =>
    if is_void_element tag then SlotClosingStyle.Void else SlotClosingStyle.Explicit

/-- Association-list read of the attribute map. -/
def lookupAttr (attrs : List (Str × Str)) (k : Str) : Option Str :=
  match attrs with
  | [] => none
  | (a, v) :: rest => if a = k then some v else lookupAttr rest k

/-- The replacement closure of the self-closing/void branch of
`merge_slot_string`.  The argument is the whole matched opening tag (ending
in the closing angle bracket); the first capture group is everything before
that final character and the second group is that final character alone,
because the greedy interior star of the pattern absorbs any solidus or
whitespace before it. -/
def scTransform (mode : Str) (attrs : List (Str × Str)) (m : Str) : Str :=
  let g1 := m.dropLast
  let ending := m.drop (m.length - 1)
  let withoutSlot := strip_attribute g1 slotLit
  let withoutMode := strip_attribute withoutSlot slotModeLit
  let opening := trimEnd withoutMode
  if startsWithStr attrColon mode then
    let an := mode.drop 5
    match lookupAttr attrs an with
    | some v =>
      let builder := if opening.getLast? = some ' ' then opening else opening ++ [' ']
      (builder ++ (an ++ ('=' :: '"' :: (v ++ ['"'])))) ++ ending
    | none => opening ++ ending
  else opening ++ ending

/-- Rust `str::replace` with the one-character needle consisting of the
closing angle bracket. -/
def replaceGtAll (s : Str) (ins : Str) : Str :=
  match s with
  | [] => []
  | c :: cs => (if c = '>' then ins else [c]) ++ replaceGtAll cs ins

/-- The replacement closure of the explicit branch of `merge_slot_string`,
taking the captured opening tag and the captured closing tag.  The captured
interior is never consulted by the source closure. -/
def exTransform (mode : Str) (attrs : List (Str × Str)) (innerHtml : Str)
    (g1 ct : Str) : Str :=
  let o1 := strip_attribute g1 slotLit
  let o2 := strip_attribute o1 slotModeLit
  let opening := trimEnd o2
  if mode = textLit then opening ++ (innerHtml ++ ct)
  else if startsWithStr attrColon mode then
    let an := mode.drop 5
    match lookupAttr attrs an with
    | some v =>
      replaceGtAll opening ((' ' :: an) ++ ('=' :: '"' :: (v ++ ['"', '>']))) ++ ct
    | none => opening ++ ct
  else opening ++ (innerHtml ++ ct)

/-- Leftmost-first replace of the self-closing/void slot pattern: scan starts
left to right, rewrite the first match, keep everything else. -/
def replaceFirstSC (tag name : Str) (tr : Str → Str) : Str → Str
  | [] => []
  | c :: cs =>
    match openTagAt tag name (c :: cs) with
    | some (m, r) => tr m ++ r
    | none => c :: replaceFirstSC tag name tr cs

/-- Leftmost-first replace of the explicit slot pattern (opening tag,
non-greedy interior, closing tag). -/
def replaceFirstEx (tag name : Str) (tr : Str → Str → Str) : Str → Str
  | [] => []
  | c :: cs =>
    match openTagAt tag name (c :: cs) with
    | some (g1, r) =>
      match findCloseTag tag r with
      | some (_, ct, r2) => tr g1 ct ++ r2
      | none => c :: replaceFirstEx tag name tr cs
    | none => c :: replaceFirstEx tag name tr cs

/-- Embeds `Compiler::merge_slot_string`. -/
def merge_slot_string (html : Str) (slot : SlotSpec) (content : PageSlotContent) : Str :=
  if slot.closing_style = SlotClosingStyle.SelfClosing ∨
      slot.closing_style = SlotClosingStyle.Void then
    replaceFirstSC slot.layout_tag slot.name (scTransform slot.mode content.attributes) html
  else
    replaceFirstEx slot.layout_tag slot.name
      (exTransform slot.mode content.attributes content.inner_html) html

/-! ## Splitting invariants of the scanners -/

theorem splitCI_append {p : Str} :
    ∀ {s m r : Str}, splitCI p s = some (m, r) → m ++ r = s := by
  induction p with
  | nil =>
    intro s m r h
    simp only [splitCI, Option.some.injEq, Prod.mk.injEq] at h
    obtain ⟨rfl, rfl⟩ := h
    rfl
  | cons p ps ih =>
    intro s m r h
    cases s with
    | nil => simp [splitCI] at h
    | cons c cs =>
      simp only [splitCI] at h
      split at h
      · cases hm : splitCI ps cs with
        | none => rw [hm] at h; exact absurd h (by simp)
        | some pr =>
          obtain ⟨m1, r1⟩ := pr
          rw [hm] at h
          simp only [Option.some.injEq, Prod.mk.injEq] at h
          obtain ⟨rfl, rfl⟩ := h
          simpa using ih hm
      · exact absurd h (by simp)

theorem splitChar_append {p : Char → Bool} :
    ∀ {s : Str} {c : Char} {r : Str}, splitChar p s = some (c, r) → c :: r = s := by
  intro s c r h
  cases s with
  | nil => simp [splitChar] at h
  | cons a cs =>
    simp only [splitChar] at h
    split at h
    · simp only [Option.some.injEq, Prod.mk.injEq] at h
      obtain ⟨rfl, rfl⟩ := h
      rfl
    · exact absurd h (by simp)

theorem consumeThrough_append {stop : Char} :
    ∀ {s m r : Str}, consumeThrough stop s = some (m, r) → m ++ r = s := by
  intro s
  induction s with
  | nil => intro m r h; simp [consumeThrough] at h
  | cons c cs ih =>
    intro m r h
    simp only [consumeThrough] at h
    split at h
    · simp only [Option.some.injEq, Prod.mk.injEq] at h
      obtain ⟨rfl, rfl⟩ := h
      rfl
    · cases hm : consumeThrough stop cs with
      | none => rw [hm] at h; exact absurd h (by simp)
      | some pr =>
        obtain ⟨m1, r1⟩ := pr
        rw [hm] at h
        simp only [Option.some.injEq, Prod.mk.injEq] at h
        obtain ⟨rfl, rfl⟩ := h
        simpa using ih hm

theorem parseSlotAssign_append {name : Str} :
    ∀ {s m r : Str}, parseSlotAssign name s = some (m, r) → m ++ r = s := by
  intro s m r h
  simp only [parseSlotAssign] at h
  cases h1 : splitCI slotLit s with
  | none => rw [h1] at h; exact absurd h (by simp)
  | some pr1 =>
    obtain ⟨a, s1⟩ := pr1
    rw [h1] at h
    simp only at h
    cases h2 : splitChar (fun c => c == '=') (s1.dropWhile isWsChar) with
    | none => rw [h2] at h; exact absurd h (by simp)
    | some pr2 =>
      obtain ⟨e, s3⟩ := pr2
      rw [h2] at h
      simp only at h
      cases h3 : splitChar (fun c => c == '"' || c == '\'') (s3.dropWhile isWsChar) with
      | none => rw [h3] at h; exact absurd h (by simp)
      | some pr3 =>
        obtain ⟨q1, s5⟩ := pr3
        rw [h3] at h
        simp only at h
        cases h4 : splitCI name s5 with
        | none => rw [h4] at h; exact absurd h (by simp)
        | some pr4 =>
          obtain ⟨nm, s6⟩ := pr4
          rw [h4] at h
          simp only at h
          cases h5 : splitChar (fun c => c == '"' || c == '\'') s6 with
          | none => rw [h5] at h; exact absurd h (by simp)
          | some pr5 =>
            obtain ⟨q2, s7⟩ := pr5
            rw [h5] at h
            simp only [Option.some.injEq, Prod.mk.injEq] at h
            obtain ⟨rfl, rfl⟩ := h
            have e1 := splitCI_append h1
            have e2 := splitChar_append h2
            have e3 := splitChar_append h3
            have e4 := splitCI_append h4
            have e5 := splitChar_append h5
            have t1 : s1.takeWhile isWsChar ++ s1.dropWhile isWsChar = s1 :=
              List.takeWhile_append_dropWhile isWsChar s1
            have t2 : s3.takeWhile isWsChar ++ s3.dropWhile isWsChar = s3 :=
              List.takeWhile_append_dropWhile isWsChar s3
            simp only [List.append_assoc, List.cons_append, List.singleton_append,
              List.nil_append]
            rw [e5, e4, e3, t2, e2, t1]
            exact e1

theorem scanSlotInner_append {name : Str} :
    ∀ {s : Str} {prev : Char} {m r : Str},
      scanSlotInner name prev s = some (m, r) → m ++ r = s := by
  intro s
  induction s with
  | nil => intro prev m r h; simp [scanSlotInner] at h
  | cons c cs ih =>
    intro prev m r h
    simp only [scanSlotInner] at h
    split at h
    next x heq =>
      split at heq
      · exact absurd heq (by simp)
      · cases hm : scanSlotInner name c cs with
        | none => rw [hm] at heq; exact absurd heq (by simp)
        | some pr =>
          obtain ⟨m1, r1⟩ := pr
          rw [hm] at heq
          simp only [Option.some.injEq] at heq
          subst heq
          simp only [Option.some.injEq, Prod.mk.injEq] at h
          obtain ⟨rfl, rfl⟩ := h
          simpa using ih hm
    next heq =>
      split at h
      · exact absurd h (by simp)
      · cases hp : parseSlotAssign name (c :: cs) with
        | none => rw [hp] at h; exact absurd h (by simp)
        | some pr =>
          obtain ⟨m1, s1⟩ := pr
          rw [hp] at h
          simp only at h
          cases hc : consumeThrough '>' s1 with
          | none => rw [hc] at h; exact absurd h (by simp)
          | some pr2 =>
            obtain ⟨m2, r2⟩ := pr2
            rw [hc] at h
            simp only [Option.some.injEq, Prod.mk.injEq] at h
            obtain ⟨rfl, rfl⟩ := h
            have e1 := parseSlotAssign_append hp
            have e2 := consumeThrough_append hc
            rw [List.append_assoc, e2, e1]

theorem openTagAt_append {tag name : Str} :
    ∀ {s m r : Str}, openTagAt tag name s = some (m, r) → m ++ r = s := by
  intro s m r h
  cases s with
  | nil => simp [openTagAt] at h
  | cons c s1 =>
    simp only [openTagAt] at h
    split at h
    · cases h1 : splitCI tag s1 with
      | none => rw [h1] at h; exact absurd h (by simp)
      | some pr =>
        obtain ⟨tm, s2⟩ := pr
        rw [h1] at h
        simp only at h
        split at h
        · cases h2 : scanSlotInner name ((c :: tm).getLast (by simp)) s2 with
          | none => rw [h2] at h; exact absurd h (by simp)
          | some pr2 =>
            obtain ⟨m1, r1⟩ := pr2
            rw [h2] at h
            simp only [Option.some.injEq, Prod.mk.injEq] at h
            obtain ⟨rfl, rfl⟩ := h
            have e1 := splitCI_append h1
            have e2 := scanSlotInner_append h2
            simp only [List.cons_append, List.append_assoc, e2, e1]
        · exact absurd h (by simp)
    · exact absurd h (by simp)

theorem findCloseTag_append {tag : Str} :
    ∀ {s inner ct r : Str},
      findCloseTag tag s = some (inner, ct, r) → inner ++ (ct ++ r) = s := by
  intro s
  induction s with
  | nil => intro inner ct r h; simp [findCloseTag] at h
  | cons c cs ih =>
    intro inner ct r h
    simp only [findCloseTag] at h
    split at h
    next heq =>
      simp only [Option.some.injEq, Prod.mk.injEq] at h
      obtain ⟨rfl, rfl, rfl⟩ := h
      simpa using splitCI_append heq
    next heq =>
      cases hm : findCloseTag tag cs with
      | none => rw [hm] at h; exact absurd h (by simp)
      | some pr =>
        obtain ⟨i1, ct1, r1⟩ := pr
        rw [hm] at h
        simp only [Option.some.injEq, Prod.mk.injEq] at h
        obtain ⟨rfl, rfl, rfl⟩ := h
        simpa using ih hm

/-! ## Frame properties of the first-match replace -/

/-- The full-pattern match of the explicit branch at a fixed start: the
captured opening tag, interior and closing tag, and the rest. -/
def exHit (tag name : Str) (s : Str) : Option (Str × Str × Str × Str) :=
  match openTagAt tag name s with
  | some (g1, r) =>
    match findCloseTag tag r with
    | some (inner, ct, r2) => some (g1, inner, ct, r2)
    | none => none
  | none => none

theorem exHit_append {tag name : Str} {s g1 inner ct r : Str}
    (h : exHit tag name s = some (g1, inner, ct, r)) :
    g1 ++ (inner ++ (ct ++ r)) = s := by
  simp only [exHit] at h
  cases h1 : openTagAt tag name s with
  | none => rw [h1] at h; exact absurd h (by simp)
  | some pr =>
    obtain ⟨m1, r1⟩ := pr
    rw [h1] at h
    simp only at h
    cases h2 : findCloseTag tag r1 with
    | none => rw [h2] at h; exact absurd h (by simp)
    | some pr2 =>
      obtain ⟨i1, ct1, r2⟩ := pr2
      rw [h2] at h
      simp only [Option.some.injEq, Prod.mk.injEq] at h
      obtain ⟨rfl, rfl, rfl, rfl⟩ := h
      rw [findCloseTag_append h2]
      exact openTagAt_append h1

/-- The match-and-replacement splitter corresponding to one application of
`merge_slot_string` anchored at a fixed start: the matched region (the
opening tag for the self-closing/void styles, the opening tag through the
closing tag for the explicit style), its replacement, and the rest. -/
def mergeHit (slot : SlotSpec) (content : PageSlotContent) (s : Str) :
    Option (Str × Str × Str) :=
  if slot.closing_style = SlotClosingStyle.SelfClosing ∨
      slot.closing_style = SlotClosingStyle.Void then
    match openTagAt slot.layout_tag slot.name s with
    | some (m, r) => some (m, scTransform slot.mode content.attributes m, r)
    | none => none
  else
    match exHit slot.layout_tag slot.name s with
    | some (g1, inner, ct, r) =>
      some (g1 ++ (inner ++ ct),
        exTransform slot.mode content.attributes content.inner_html g1 ct, r)
    | none => none

theorem mergeHit_append {slot : SlotSpec} {content : PageSlotContent} {s m repl r : Str}
    (h : mergeHit slot content s = some (m, repl, r)) : m ++ r = s := by
  simp only [mergeHit] at h
  split at h
  · cases h1 : openTagAt slot.layout_tag slot.name s with
    | none => rw [h1] at h; exact absurd h (by simp)
    | some pr =>
      obtain ⟨m1, r1⟩ := pr
      rw [h1] at h
      simp only [Option.some.injEq, Prod.mk.injEq] at h
      obtain ⟨rfl, rfl, rfl⟩ := h
      exact openTagAt_append h1
  · cases h1 : exHit slot.layout_tag slot.name s with
    | none => rw [h1] at h; exact absurd h (by simp)
    | some pr =>
      obtain ⟨g1, inner, ct, r1⟩ := pr
      rw [h1] at h
      simp only [Option.some.injEq, Prod.mk.injEq] at h
      obtain ⟨rfl, rfl, rfl⟩ := h
      have := exHit_append h1
      simpa [List.append_assoc] using this

theorem merge_slot_string_nil (slot : SlotSpec) (content : PageSlotContent) :
    merge_slot_string [] slot content = [] := by
  simp only [merge_slot_string]
  split
  · rfl
  · rfl

theorem merge_slot_string_cons (slot : SlotSpec) (content : PageSlotContent)
    (c : Char) (cs : Str) :
    merge_slot_string (c :: cs) slot content =
      match mergeHit slot content (c :: cs) with
      | some (_, repl, r) => repl ++ r
      | none => c :: merge_slot_string cs slot content := by
  simp only [merge_slot_string, mergeHit]
  split
  · cases h1 : openTagAt slot.layout_tag slot.name (c :: cs) with
    | none => simp only [replaceFirstSC, h1]
    | some pr => obtain ⟨m, r⟩ := pr; simp only [replaceFirstSC, h1]
  · cases h1 : openTagAt slot.layout_tag slot.name (c :: cs) with
    | none => simp only [replaceFirstEx, exHit, h1]
    | some pr =>
      obtain ⟨g1, r1⟩ := pr
      cases h2 : findCloseTag slot.layout_tag r1 with
      | none => simp only [replaceFirstEx, exHit, h1, h2]
      | some pr2 => obtain ⟨i, ct, r2⟩ := pr2; simp only [replaceFirstEx, exHit, h1, h2]

/-- Generic frame property of a leftmost first-match replace: the scanner
either returns the text unchanged with no match at any start, or splits the
text around the leftmost match and rewrites exactly the matched region. -/
theorem firstReplace_frame (hit : Str → Option (Str × Str × Str)) (scan : Str → Str)
    (hnil : scan [] = [])
    (hcons : ∀ c cs, scan (c :: cs) =
      match hit (c :: cs) with
      | some (_, repl, r) => repl ++ r
      | none => c :: scan cs)
    (happ : ∀ s m repl r, hit s = some (m, repl, r) → m ++ r = s) :
    ∀ s : Str,
      (scan s = s ∧ ∀ pre post : Str, s = pre ++ post → post ≠ [] → hit post = none)
      ∨ ∃ pre m repl post : Str,
          s = pre ++ (m ++ post) ∧
          scan s = pre ++ (repl ++ post) ∧
          hit (m ++ post) = some (m, repl, post) ∧
          ∀ p1 p2 : Str, pre = p1 ++ p2 → p2 ≠ [] →
            hit (p2 ++ (m ++ post)) = none := by
  intro s
  induction s with
  | nil =>
    left
    refine ⟨hnil, ?_⟩
    intro pre post hsplit hne
    exact absurd (List.append_eq_nil.mp hsplit.symm).2 hne
  | cons c cs ih =>
    cases h : hit (c :: cs) with
    | some pr =>
      obtain ⟨m, repl, r⟩ := pr
      right
      have hmr : m ++ r = c :: cs := happ _ _ _ _ h
      refine ⟨[], m, repl, r, by simp [hmr], ?_, by rwa [hmr], ?_⟩
      · rw [hcons, h]
        simp
      · intro p1 p2 hp hne
        exact absurd (List.append_eq_nil.mp hp.symm).2 hne
    | none =>
      have hstep : scan (c :: cs) = c :: scan cs := by rw [hcons, h]
      rcases ih with ⟨hid, hnone⟩ | ⟨pre, m, repl, post, hs, hrepl, hhit, hfirst⟩
      · left
        constructor
        · rw [hstep, hid]
        · intro pre post hsplit hne
          cases pre with
          | nil =>
            simp only [List.nil_append] at hsplit
            rw [← hsplit]
            exact h
          | cons a pre1 =>
            simp only [List.cons_append, List.cons.injEq] at hsplit
            exact hnone pre1 post hsplit.2 hne
      · right
        refine ⟨c :: pre, m, repl, post, by simp [hs], ?_, hhit, ?_⟩
        · rw [hstep, hrepl]
          simp
        · intro p1 p2 hp hne
          cases p1 with
          | nil =>
            simp only [List.nil_append] at hp
            rw [← hp, List.cons_append]
            rw [← hs]
            exact h
          | cons a p11 =>
            simp only [List.cons_append, List.cons.injEq] at hp
            exact hfirst p11 p2 hp.2 hne

theorem mergeHit_some_open {slot : SlotSpec} {content : PageSlotContent} {s m repl r : Str}
    (h : mergeHit slot content s = some (m, repl, r)) :
    ∃ g1 r1 : Str, openTagAt slot.layout_tag slot.name s = some (g1, r1) := by
  simp only [mergeHit] at h
  split at h
  · cases h1 : openTagAt slot.layout_tag slot.name s with
    | none => rw [h1] at h; exact absurd h (by simp)
    | some pr => obtain ⟨a, b⟩ := pr; exact ⟨a, b, rfl⟩
  · cases h1 : exHit slot.layout_tag slot.name s with
    | none => rw [h1] at h; exact absurd h (by simp)
    | some pr =>
      obtain ⟨g1, inner, ct, r1⟩ := pr
      simp only [exHit] at h1
      cases h2 : openTagAt slot.layout_tag slot.name s with
      | none => rw [h2] at h1; exact absurd h1 (by simp)
      | some pr2 => obtain ⟨a, b⟩ := pr2; exact ⟨a, b, rfl⟩

/-- C1: one application of `merge_slot_string` either returns the layout text
byte-for-byte unchanged, with no anchored match at any start position, or it
splits the layout text as prefix, leftmost matched slot region and suffix,
and rewrites exactly the matched region: every byte of the prefix and the
suffix — hence all static text, comments and whitespace outside the region,
and in particular any second layout element carrying the same slot name,
which can only sit in the suffix — is reproduced verbatim, and no earlier
start position carries a match. -/
theorem merge_slot_string_frame_effect_c1 (html : Str) (slot : SlotSpec)
    (content : PageSlotContent) :
    (merge_slot_string html slot content = html ∧
      ∀ pre post : Str, html = pre ++ post → post ≠ [] →
        mergeHit slot content post = none)
    ∨ ∃ pre m repl post : Str,
        html = pre ++ (m ++ post) ∧
        merge_slot_string html slot content = pre ++ (repl ++ post) ∧
        mergeHit slot content (m ++ post) = some (m, repl, post) ∧
        ∀ p1 p2 : Str, pre = p1 ++ p2 → p2 ≠ [] →
          mergeHit slot content (p2 ++ (m ++ post)) = none :=
  firstReplace_frame (mergeHit slot content) (fun s => merge_slot_string s slot content)
    (merge_slot_string_nil slot content)
    (fun c cs => merge_slot_string_cons slot content c cs)
    (fun _ _ _ _ h => mergeHit_append h) html

/-- Concrete data for the self-closing attribute-injection counterexample:
a layout tag written with a self-closing solidus. -/
def cxHtml : Str := ("<img slot=\"pic\" />").data

def cxSlot : SlotSpec :=
  { name := ("pic").data, mode := ("attr:alt").data, layout_tag := ("img").data,
    closing_style := SlotClosingStyle.SelfClosing }

def cxContent : PageSlotContent :=
  { tag := ("img").data, inner_html := [], attributes := [(("alt").data, ("x").data)],
    original_html := none, closing_style := SlotClosingStyle.SelfClosing }

/-- C4, counterexample: for a self-closing slot written with a solidus
before the closing angle bracket, attribute injection does not place the
attribute before the closing solidus-bracket pair: the output retains the
solidus before the injected attribute, and the two-character closing pair is
not even a substring of the result, contradicting the claim that the
attribute is injected before it. -/
theorem merge_selfclosing_attr_counterexample_c4 :
    merge_slot_string cxHtml cxSlot cxContent = ("<img / alt=\"x\">").data ∧
    containsStr slashGt (merge_slot_string cxHtml cxSlot cxContent) = false ∧
    containsStr slashGt cxHtml = true := by
  refine ⟨by decide, by decide, by decide⟩

/-- C4, amended: for a slot whose closing style is SelfClosing or Void, the
merge never substitutes inner markup — the result is invariant under
arbitrary replacement of the resolved content's inner markup — and rewrites
only the matched opening tag: either there is no match and the layout text
is returned unchanged, or the text splits as prefix, matched opening tag and
suffix, with prefix and suffix verbatim and the matched opening tag replaced
by the transform that strips the slot and slot-mode attributes, trims
trailing whitespace, and, exactly when the fill mode is an attribute mode
whose attribute the resolved content carries, appends that attribute (after
a separating space) immediately before the final closing angle bracket — so
when the tag was written with a solidus before that bracket, the attribute
lands after the solidus. -/
theorem merge_selfclosing_void_opening_only_c4 (html : Str) (slot : SlotSpec)
    (content : PageSlotContent)
    (hstyle : slot.closing_style = SlotClosingStyle.SelfClosing ∨
      slot.closing_style = SlotClosingStyle.Void) :
    (∀ inner2 : Str,
      merge_slot_string html slot { content with inner_html := inner2 } =
        merge_slot_string html slot content)
    ∧ ((merge_slot_string html slot content = html ∧
        ∀ pre post : Str, html = pre ++ post → post ≠ [] →
          openTagAt slot.layout_tag slot.name post = none)
      ∨ ∃ pre m post : Str,
          html = pre ++ (m ++ post) ∧
          openTagAt slot.layout_tag slot.name (m ++ post) = some (m, post) ∧
          merge_slot_string html slot content =
            pre ++ (scTransform slot.mode content.attributes m ++ post)) := by
  constructor
  · intro inner2
    show merge_slot_string html slot { content with inner_html := inner2 } =
      merge_slot_string html slot content
    rw [merge_slot_string, merge_slot_string, if_pos hstyle, if_pos hstyle]
  · have hframe := firstReplace_frame (mergeHit slot content)
      (fun s => merge_slot_string s slot content)
      (merge_slot_string_nil slot content)
      (fun c cs => merge_slot_string_cons slot content c cs)
      (fun _ _ _ _ h => mergeHit_append h) html
    have hhit_eq : ∀ s : Str, mergeHit slot content s =
        match openTagAt slot.layout_tag slot.name s with
        | some (m, r) => some (m, scTransform slot.mode content.attributes m, r)
        | none => none := by
      intro s
      rw [mergeHit, if_pos hstyle]
    rcases hframe with ⟨hid, hnone⟩ | ⟨pre, m, repl, post, hs, hrepl, hhit, _⟩
    · left
      refine ⟨hid, ?_⟩
      intro pre post hsplit hne
      have := hnone pre post hsplit hne
      rw [hhit_eq] at this
      cases h1 : openTagAt slot.layout_tag slot.name post with
      | none => rfl
      | some pr =>
        obtain ⟨m1, r1⟩ := pr
        rw [h1] at this
        exact absurd this (by simp)
    · right
      rw [hhit_eq] at hhit
      cases h1 : openTagAt slot.layout_tag slot.name (m ++ post) with
      | none => rw [h1] at hhit; exact absurd hhit (by simp)
      | some pr =>
        obtain ⟨m1, r1⟩ := pr
        rw [h1] at hhit
        simp only [Option.some.injEq, Prod.mk.injEq] at hhit
        obtain ⟨rfl, hrepl2, rfl⟩ := hhit
        exact ⟨pre, m1, r1, hs, h1, by rw [hrepl, ← hrepl2]⟩

/-- C4, witness: the amended theorem applied at the concrete self-closing
layout tag, showing inner-markup invariance there. -/
theorem merge_selfclosing_void_opening_only_c4_witness :
    merge_slot_string cxHtml cxSlot { cxContent with inner_html := ("IGNORED").data } =
      merge_slot_string cxHtml cxSlot cxContent :=
  (merge_selfclosing_void_opening_only_c4 cxHtml cxSlot cxContent (Or.inl rfl)).1
    (("IGNORED").data)

/-- C10: when no start position of the layout text carries a match of the
quoted slot-attribute opening-tag pattern — in particular when the slot
attribute is written without surrounding quotes — the merge returns the
layout text byte-for-byte unchanged for every fill mode, closing style and
resolved content: no substitution and no attribute stripping occurs. -/
theorem merge_unquoted_slot_unchanged_c10 (html : Str) (tag name mode : Str)
    (style : SlotClosingStyle) (content : PageSlotContent)
    (h : ∀ i : Nat, i ≤ html.length → openTagAt tag name (html.drop i) = none) :
    merge_slot_string html
      { name := name, mode := mode, layout_tag := tag, closing_style := style }
      content = html := by
  set slot : SlotSpec :=
    { name := name, mode := mode, layout_tag := tag, closing_style := style } with hslot
  have hframe := firstReplace_frame (mergeHit slot content)
    (fun s => merge_slot_string s slot content)
    (merge_slot_string_nil slot content)
    (fun c cs => merge_slot_string_cons slot content c cs)
    (fun _ _ _ _ hx => mergeHit_append hx) html
  rcases hframe with ⟨hid, _⟩ | ⟨pre, m, repl, post, hs, _, hhit, _⟩
  · exact hid
  · exfalso
    obtain ⟨g1, r1, hopen⟩ := mergeHit_some_open hhit
    have hdrop : html.drop pre.length = m ++ post := by
      rw [hs, List.drop_left]
    have hlen : pre.length ≤ html.length := by
      rw [hs, List.length_append]
      exact Nat.le_add_right _ _
    have := h pre.length hlen
    rw [hdrop] at this
    rw [this] at hopen
    exact absurd hopen (by simp)

/-- Concrete data for the unquoted-slot-attribute witness. -/
def cx10Html : Str := ("<title slot=title>Fallback</title>").data

def cx10Content : PageSlotContent :=
  { tag := ("span").data, inner_html := ("Home").data, attributes := [],
    original_html := none, closing_style := SlotClosingStyle.Explicit }

/-- C10, witness: a layout whose slot attribute is written without quotes is
returned unchanged by the merge. -/
theorem merge_unquoted_slot_unchanged_c10_witness :
    merge_slot_string cx10Html
      { name := ("title").data, mode := ("html").data, layout_tag := ("title").data,
        closing_style := SlotClosingStyle.Explicit }
      cx10Content = cx10Html :=
  merge_unquoted_slot_unchanged_c10 cx10Html (("title").data) (("title").data)
    (("html").data) SlotClosingStyle.Explicit cx10Content (by decide)

/-! ## Synthesized markup rendering (`PageSlotContent::build_markup`) -/

/-- Byte-lexicographic comparison of strings, as Rust `String::cmp` performs
on the underlying bytes (for scalar values this agrees with code-point
order). -/
def strCmp : Str → Str → Ordering
  | [], [] => Ordering.eq
  | [], _ :: _ => Ordering.lt
  | _ :: _, [] => Ordering.gt
  | a :: as1, b :: bs1 =>
    if a < b then Ordering.lt
    else if b < a then Ordering.gt
    else strCmp as1 bs1

/-- The attribute-name comparator of `build_markup`: the for-slot key sorts
first, all other keys sort lexicographically. -/
def attrCmp (a b : Str) : Ordering :=
  if a = forSlotLit then (if b = forSlotLit then Ordering.eq else Ordering.lt)
  else if b = forSlotLit then Ordering.gt
  else strCmp a b

/-- The non-strict order induced by the comparator, as used by the sort. -/
def attrRel (a b : Str × Str) : Prop := attrCmp a.1 b.1 ≠ Ordering.gt

instance : DecidableRel attrRel := fun a b => by unfold attrRel; infer_instance

/-- The comparator sort of `build_markup` (`sort_by` over the collected
key-value pairs). -/
def sortAttrs (l : List (Str × Str)) : List (Str × Str) := List.insertionSort attrRel l

/-- Rust `str::replace` of the double-quote character by its entity, the only
escaping `build_markup` applies to attribute values. -/
def escapeQuot : Str → Str
  | [] => []
  | c :: cs => (if c = '"' then ("&quot;").data else [c]) ++ escapeQuot cs

/-- One rendered attribute: a leading space, the name, an equals sign and the
double-quoted escaped value. -/
def renderAttr (kv : Str × Str) : Str :=
  (' ' :: kv.1) ++ ('=' :: '"' :: (escapeQuot kv.2 ++ ['"']))

/-- Embeds `PageSlotContent::build_markup`. -/
def PageSlotContent.build_markup (tag : Str) (attributes : List (Str × Str))
    (inner_html : Str) (closing_style : SlotClosingStyle) : Str :=
  let attrStr := (sortAttrs attributes).foldl (fun acc kv => acc ++ renderAttr kv) []
  match closing_style with
  | SlotClosingStyle.SelfClosing => ('<' :: (tag ++ attrStr)) ++ (' ' :: '/' :: '>' :: [])
  | SlotClosingStyle.Void => ('<' :: (tag ++ attrStr)) ++ ['>']
  | SlotClosingStyle.Explicit =>
    ('<' :: (tag ++ attrStr)) ++ ('>' :: (inner_html ++ ('<' :: '/' :: (tag ++ ['>']))))

/-- Embeds `PageSlotContent::render`: the verbatim outer markup when present,
otherwise the synthesized markup. -/
def PageSlotContent.render (c : PageSlotContent) : Str :=
  match c.original_html with
  | some original => original
  | none => PageSlotContent.build_markup c.tag c.attributes c.inner_html c.closing_style

/-! ## Page slot extraction (`build_once`, provider scan) -/

/-- One element carrying a for-slot attribute, in tree order, as delivered by
the external HTML parser: the data the extraction loop reads from the node. -/
structure ForSlotElem where
  slotName : Str
  tag : Str
  inner_html : Str
  attributes : List (Str × Str)
  outer_html : Str
deriving DecidableEq, Repr

/-- The closing-style judgment the extraction loop makes from the provider's
outer markup. -/
def pageClosingStyle (tag outer : Str) : SlotClosingStyle :=
  let t := trimEnd outer
  if endsWithStr slashGt t then SlotClosingStyle.SelfClosing
  else if containsStr (closePat (tag.map Char.toLower)) (t.map Char.toLower) then
    SlotClosingStyle.Explicit
  else if is_void_element tag then SlotClosingStyle.Void
  else SlotClosingStyle.Explicit

/-- The `PageSlotContent` record the extraction loop builds from one
provider element. -/
def elemContent (e : ForSlotElem) : PageSlotContent :=
  { tag := e.tag, inner_html := e.inner_html, attributes := e.attributes,
    original_html := if e.outer_html = [] then none else some e.outer_html,
    closing_style := pageClosingStyle e.tag e.outer_html }

/-- Key-presence test of the provider map (`contains_key`). -/
def hasKey (m : List (Str × PageSlotContent)) (k : Str) : Bool :=
  match m with
  | [] => false
  | (a, _) :: rest => if a = k then true else hasKey rest k

/-- Association-list read of the provider map. -/
def lookupContent (m : List (Str × PageSlotContent)) (k : Str) : Option PageSlotContent :=
  match m with
  | [] => none
  | (a, v) :: rest => if a = k then some v else lookupContent rest k

/-- One step of the extraction loop: a provider whose slot name is already
recorded is skipped entirely; otherwise its content and its name are
appended. -/
def extractStep (acc : List (Str × PageSlotContent) × List Str) (e : ForSlotElem) :
    List (Str × PageSlotContent) × List Str :=
  if hasKey acc.1 e.slotName then acc
  else (acc.1 ++ [(e.slotName, elemContent e)], acc.2 ++ [e.slotName])

/-- Embeds the provider-extraction loop of `build_once`: the provider map and
the first-encounter order over the tree-ordered for-slot elements. -/
def extractPageSlots (elems : List ForSlotElem) : List (Str × PageSlotContent) × List Str :=
  elems.foldl extractStep ([], [])

/-! ## Comparator facts and determinism of the attribute sort -/

theorem strCmp_eq_of : ∀ {x y : Str}, strCmp x y = Ordering.eq → x = y := by
  intro x
  induction x with
  | nil =>
    intro y h
    cases y with
    | nil => rfl
    | cons b bs1 => simp [strCmp] at h
  | cons a as1 ih =>
    intro y h
    cases y with
    | nil => simp [strCmp] at h
    | cons b bs1 =>
      simp only [strCmp] at h
      rcases lt_trichotomy a b with h1 | h1 | h1
      · rw [if_pos h1] at h
        exact absurd h (by decide)
      · subst h1
        simp only [lt_irrefl, if_false] at h
        rw [ih h]
      · rw [if_neg (asymm h1), if_pos h1] at h
        exact absurd h (by decide)

theorem strCmp_swap : ∀ (x y : Str), strCmp y x = (strCmp x y).swap := by
  intro x
  induction x with
  | nil =>
    intro y
    cases y with
    | nil => rfl
    | cons b bs1 => rfl
  | cons a as1 ih =>
    intro y
    cases y with
    | nil => rfl
    | cons b bs1 =>
      simp only [strCmp]
      rcases lt_trichotomy a b with h1 | h1 | h1
      · rw [if_pos h1, if_neg (asymm h1), if_pos h1]
        rfl
      · subst h1
        simp only [lt_irrefl, if_false]
        exact ih bs1
      · rw [if_pos h1, if_neg (asymm h1), if_pos h1]
        rfl

theorem strCmp_lt_trans :
    ∀ {x y z : Str}, strCmp x y = Ordering.lt → strCmp y z = Ordering.lt →
      strCmp x z = Ordering.lt := by
  intro x
  induction x with
  | nil =>
    intro y z h1 h2
    cases y with
    | nil => simp [strCmp] at h1
    | cons b bs1 =>
      cases z with
      | nil => simp [strCmp] at h2
      | cons c cs1 => rfl
  | cons a as1 ih =>
    intro y z h1 h2
    cases y with
    | nil => simp [strCmp] at h1
    | cons b bs1 =>
      cases z with
      | nil => simp [strCmp] at h2
      | cons c cs1 =>
        simp only [strCmp] at h1 h2 ⊢
        rcases lt_trichotomy a b with hab | hab | hab
        · rcases lt_trichotomy b c with hbc | hbc | hbc
          · rw [if_pos (lt_trans hab hbc)]
          · subst hbc
            rw [if_pos hab]
          · rw [if_neg (asymm hbc), if_pos hbc] at h2
            exact absurd h2 (by decide)
        · subst hab
          simp only [lt_irrefl, if_false] at h1
          rcases lt_trichotomy a c with hac | hac | hac
          · rw [if_pos hac]
          · subst hac
            simp only [lt_irrefl, if_false] at h2 ⊢
            exact ih h1 h2
          · rw [if_neg (asymm hac), if_pos hac] at h2
            exact absurd h2 (by decide)
        · rw [if_neg (asymm hab), if_pos hab] at h1
          exact absurd h1 (by decide)

theorem attrCmp_eq_of {x y : Str} (h : attrCmp x y = Ordering.eq) : x = y := by
  unfold attrCmp at h
  by_cases hx : x = forSlotLit
  · rw [if_pos hx] at h
    by_cases hy : y = forSlotLit
    · rw [hx, hy]
    · rw [if_neg hy] at h
      exact absurd h (by decide)
  · rw [if_neg hx] at h
    by_cases hy : y = forSlotLit
    · rw [if_pos hy] at h
      exact absurd h (by decide)
    · rw [if_neg hy] at h
      exact strCmp_eq_of h

theorem attrCmp_swap (x y : Str) : attrCmp y x = (attrCmp x y).swap := by
  unfold attrCmp
  by_cases hx : x = forSlotLit
  · by_cases hy : y = forSlotLit
    · simp only [hx, hy, if_true, ite_true]
      rfl
    · simp only [hx, hy, if_true, ite_true, if_false, ite_false]
      rfl
  · by_cases hy : y = forSlotLit
    · simp only [hx, hy, if_true, ite_true, if_false, ite_false]
      rfl
    · simp only [hx, hy, if_false, ite_false]
      exact strCmp_swap x y

theorem strCmp_ne_gt_trans {x y z : Str} (h1 : strCmp x y ≠ Ordering.gt)
    (h2 : strCmp y z ≠ Ordering.gt) : strCmp x z ≠ Ordering.gt := by
  cases hxy : strCmp x y with
  | gt => exact absurd hxy h1
  | eq => rw [strCmp_eq_of hxy]; exact h2
  | lt =>
    cases hyz : strCmp y z with
    | gt => exact absurd hyz h2
    | eq => rw [← strCmp_eq_of hyz, hxy]; decide
    | lt => rw [strCmp_lt_trans hxy hyz]; decide

theorem attrCmp_ne_gt_trans {x y z : Str} (h1 : attrCmp x y ≠ Ordering.gt)
    (h2 : attrCmp y z ≠ Ordering.gt) : attrCmp x z ≠ Ordering.gt := by
  unfold attrCmp at h1 h2 ⊢
  by_cases hx : x = forSlotLit
  · rw [if_pos hx]
    split_ifs <;> decide
  · rw [if_neg hx] at h1 ⊢
    by_cases hy : y = forSlotLit
    · rw [if_pos hy] at h1
      exact absurd rfl h1
    · rw [if_neg hy] at h1 h2
      by_cases hz : z = forSlotLit
      · rw [if_pos hz] at h2
        exact absurd rfl h2
      · rw [if_neg hz] at h2 ⊢
        exact strCmp_ne_gt_trans h1 h2

instance : IsTotal (Str × Str) attrRel :=
  ⟨fun a b => by
    unfold attrRel
    cases h : attrCmp a.1 b.1 with
    | gt =>
      right
      rw [attrCmp_swap, h]
      decide
    | eq => left; simp [h]
    | lt => left; simp [h]⟩

instance : IsTrans (Str × Str) attrRel :=
  ⟨fun _ _ _ h1 h2 => attrCmp_ne_gt_trans h1 h2⟩

/-- The strict key order underlying the comparator. -/
def attrLtP (a b : Str × Str) : Prop := attrCmp a.1 b.1 = Ordering.lt

instance : IsAntisymm (Str × Str) attrLtP :=
  ⟨fun a b h1 h2 => by
    unfold attrLtP at h1 h2
    rw [attrCmp_swap, h1] at h2
    exact absurd h2 (by decide)⟩

theorem sortAttrs_sorted_lt {l : List (Str × Str)} (h : (l.map Prod.fst).Nodup) :
    List.Pairwise attrLtP (sortAttrs l) := by
  have hs : List.Sorted attrRel (sortAttrs l) := List.sorted_insertionSort attrRel l
  have hperm : (sortAttrs l).Perm l := List.perm_insertionSort attrRel l
  have hnodup : ((sortAttrs l).map Prod.fst).Nodup :=
    ((hperm.map Prod.fst).nodup_iff).mpr h
  have hpw2 : List.Pairwise (fun a b : Str × Str => ¬ a.1 = b.1) (sortAttrs l) :=
    List.pairwise_map.mp hnodup
  refine List.Pairwise.imp_of_mem ?_ (hs.and hpw2)
  intro a b _ _ hab
  obtain ⟨hle, hne⟩ := hab
  unfold attrRel at hle
  unfold attrLtP
  cases hc : attrCmp a.1 b.1 with
  | lt => rfl
  | eq => exact absurd (attrCmp_eq_of hc) hne
  | gt => exact absurd hc hle

theorem sortAttrs_perm_eq {l1 l2 : List (Str × Str)} (hperm : l1.Perm l2)
    (h : (l1.map Prod.fst).Nodup) : sortAttrs l1 = sortAttrs l2 := by
  have h2 : (l2.map Prod.fst).Nodup := ((hperm.map Prod.fst).nodup_iff).mp h
  have p : (sortAttrs l1).Perm (sortAttrs l2) :=
    (List.perm_insertionSort attrRel l1).trans
      (hperm.trans (List.perm_insertionSort attrRel l2).symm)
  exact List.eq_of_perm_of_sorted p (sortAttrs_sorted_lt h) (sortAttrs_sorted_lt h2)

/-- C8: the synthesized markup of `build_markup` is deterministic — it does
not depend on the iteration order of the attribute hash map: any two
enumeration orders of the same attribute set (unique keys) render to the
same text — and the rendering follows the exact sort policy: the attribute
list is emitted as a permutation of the given set that is strictly sorted by
the comparator placing the for-slot key first and every other key in
lexicographic order; each value is escaped by replacing double quotes with
the quote entity only, and the element shape is the self-closing, void or
explicit form according to the closing style (the latter is the definition
of `build_markup` itself, stated here through it). -/
theorem build_markup_policy_c8 (tag inner : Str) (style : SlotClosingStyle)
    (l1 l2 : List (Str × Str)) (hperm : l1.Perm l2)
    (hnodup : (l1.map Prod.fst).Nodup) :
    PageSlotContent.build_markup tag l1 inner style =
      PageSlotContent.build_markup tag l2 inner style ∧
    (sortAttrs l1).Perm l1 ∧
    List.Pairwise attrLtP (sortAttrs l1) := by
  refine ⟨?_, List.perm_insertionSort attrRel l1, sortAttrs_sorted_lt hnodup⟩
  unfold PageSlotContent.build_markup
  rw [sortAttrs_perm_eq hperm hnodup]

def c8attrs1 : List (Str × Str) :=
  [(("title").data, ("Home \"x\"").data), (forSlotLit, ("head").data),
   (("alt").data, ("y").data)]

def c8attrs2 : List (Str × Str) :=
  [(forSlotLit, ("head").data), (("alt").data, ("y").data),
   (("title").data, ("Home \"x\"").data)]

/-- C8, witness: two enumeration orders of the same attribute set render to
the same synthesized markup. -/
theorem build_markup_policy_c8_witness :
    PageSlotContent.build_markup (("span").data) c8attrs1 (("Hi").data)
        SlotClosingStyle.Explicit =
      PageSlotContent.build_markup (("span").data) c8attrs2 (("Hi").data)
        SlotClosingStyle.Explicit :=
  (build_markup_policy_c8 (("span").data) (("Hi").data) SlotClosingStyle.Explicit
    c8attrs1 c8attrs2 (by decide) (by decide)).1

/-! ## First-occurrence-wins extraction (C7) -/

theorem lookupContent_append (m1 m2 : List (Str × PageSlotContent)) (k : Str) :
    lookupContent (m1 ++ m2) k =
      match lookupContent m1 k with
      | some v => some v
      | none => lookupContent m2 k := by
  induction m1 with
  | nil => simp [lookupContent]
  | cons p rest ih =>
    obtain ⟨a, v⟩ := p
    simp only [List.cons_append, lookupContent]
    by_cases hak : a = k
    · rw [if_pos hak, if_pos hak]
    · rw [if_neg hak, if_neg hak]
      simpa using ih

theorem hasKey_false_lookup {m : List (Str × PageSlotContent)} {k : Str} :
    hasKey m k = false ↔ lookupContent m k = none := by
  induction m with
  | nil => simp [hasKey, lookupContent]
  | cons p rest ih =>
    obtain ⟨a, v⟩ := p
    simp only [hasKey, lookupContent]
    by_cases hak : a = k
    · rw [if_pos hak, if_pos hak]
      simp
    · rw [if_neg hak, if_neg hak]
      exact ih

theorem extract_lookup_go (name : Str) :
    ∀ (elems : List ForSlotElem) (acc : List (Str × PageSlotContent) × List Str),
      lookupContent (elems.foldl extractStep acc).1 name =
        match lookupContent acc.1 name with
        | some v => some v
        | none => (elems.find? (fun e => e.slotName == name)).map elemContent := by
  intro elems
  induction elems with
  | nil =>
    intro acc
    simp only [List.foldl_nil, List.find?_nil, Option.map_none']
    cases h : lookupContent acc.1 name <;> simp
  | cons e es ih =>
    intro acc
    simp only [List.foldl_cons]
    rw [ih (extractStep acc e)]
    by_cases hk : hasKey acc.1 e.slotName
    · have hacc : extractStep acc e = acc := by
        unfold extractStep
        rw [if_pos hk]
      rw [hacc]
      by_cases hn : e.slotName = name
      · subst hn
        cases h : lookupContent acc.1 e.slotName with
        | none =>
          rw [← hasKey_false_lookup] at h
          rw [hk] at h
          exact absurd h (by decide)
        | some v => simp [h]
      · have hfind : (e :: es).find? (fun e2 => e2.slotName == name) =
            es.find? (fun e2 => e2.slotName == name) := by
          rw [List.find?_cons_of_neg]
          simp [hn]
        rw [hfind]
    · have hacc : extractStep acc e =
          (acc.1 ++ [(e.slotName, elemContent e)], acc.2 ++ [e.slotName]) := by
        unfold extractStep
        rw [if_neg hk]
      rw [hacc]
      simp only
      rw [lookupContent_append]
      have hnone : lookupContent acc.1 e.slotName = none := by
        rw [← hasKey_false_lookup]
        exact Bool.eq_false_iff.mpr hk
      by_cases hn : e.slotName = name
      · subst hn
        rw [hnone]
        have hfind : (e :: es).find? (fun e2 => e2.slotName == e.slotName) = some e := by
          rw [List.find?_cons_of_pos]
          simp
        rw [hfind]
        simp [lookupContent]
      · have hfind : (e :: es).find? (fun e2 => e2.slotName == name) =
            es.find? (fun e2 => e2.slotName == name) := by
          rw [List.find?_cons_of_neg]
          simp [hn]
        rw [hfind]
        cases h : lookupContent acc.1 name with
        | some v => simp
        | none => simp [lookupContent, hn]

/-- C7: the provider map built by the extraction loop records, for every slot
name, exactly the content captured from the first tree-order element carrying
that for-slot name; every later element with the same name leaves the map
unchanged (it is ignored entirely, not merged). -/
theorem extract_first_wins_c7 (elems : List ForSlotElem) (name : Str) :
    lookupContent (extractPageSlots elems).1 name =
      (elems.find? (fun e => e.slotName == name)).map elemContent := by
  unfold extractPageSlots
  rw [extract_lookup_go]
  simp [lookupContent]

/-! ## Page normalization text pipeline (`build_once`, lines joining the
rendered blocks and restoring the line-ending convention) -/

/-- Rust `str::replace` of the carriage-return/line-feed pair by a line feed
(the comparison normalization of `build_once`); leftmost non-overlapping
occurrences are replaced. -/
def crlf2lf : Str → Str
  | [] => []
  | [c] => [c]
  | c :: d :: cs =>
    if c = '\r' ∧ d = '\n' then '\n' :: crlf2lf cs
    else c :: crlf2lf (d :: cs)

/-- Rust `str::replace` of a line feed by the carriage-return/line-feed pair
(the CRLF restoration of `build_once`). -/
def lf2crlf : Str → Str
  | [] => []
  | c :: cs => if c = '\n' then '\r' :: '\n' :: lf2crlf cs else c :: lf2crlf cs

/-- Rust `str::contains` of the two-character CRLF needle. -/
def containsCrlf : Str → Bool
  | [] => false
  | [_] => false
  | c :: d :: cs => (c == '\r' && d == '\n') || containsCrlf (d :: cs)

/-- The trailing-newline test of `build_once`
(`ends_with` of a line feed, or of the CRLF pair — the second test is
subsumed by the first, exactly as in the source). -/
def hadTrailingNl (s : Str) : Bool :=
  endsWithStr (['\n']) s || endsWithStr ('\r' :: '\n' :: []) s

/-- Rust `str::trim_end_matches` with a line-feed pattern: removes every
trailing line feed. -/
def stripTrailingLf (s : Str) : Str :=
  (s.reverse.dropWhile (fun c => c == '\n')).reverse

/-- The blank-line join of the rendered blocks (`join` with two line
feeds). -/
def joinBlocks (blocks : List Str) : Str :=
  List.intercalate ('\n' :: '\n' :: []) blocks

/-- The rewritten page text `build_once` computes when the canonical form
differs: the stripped blank-line join, one restored trailing newline when
the original ended with one, and CRLF restoration when the original
contained a CRLF. -/
def finalText (blocks : List Str) (page_html : Str) : Str :=
  let nc := stripTrailingLf (joinBlocks blocks)
  let ft := nc ++ (if hadTrailingNl page_html then ['\n'] else [])
  if containsCrlf page_html then lf2crlf ft else ft

/-- The normalization decision of `build_once`: compare the canonical form
against the LF-normalized, trailing-newline-stripped original; `none` means
no rewrite, `some` carries the text written back. -/
def normalizeResult (blocks : List Str) (page_html : Str) : Option Str :=
  let nc := stripTrailingLf (joinBlocks blocks)
  let oc := stripTrailingLf (crlf2lf page_html)
  if nc = oc then none else some (finalText blocks page_html)

/-- Every line feed is part of a CRLF pair (no lone line feed). -/
def allNlCrlf : Str → Bool
  | [] => true
  | [c] => c != '\n'
  | c :: d :: cs =>
    if c = '\r' ∧ d = '\n' then allNlCrlf cs
    else if c = '\n' then false
    else allNlCrlf (d :: cs)

theorem lf2crlf_head : ∀ (s : Str), (lf2crlf s).head? ≠ some '\n' := by
  intro s
  cases s with
  | nil => simp [lf2crlf]
  | cons c cs =>
    simp only [lf2crlf]
    by_cases h : c = '\n'
    · rw [if_pos h]
      intro hx
      simp only [List.head?_cons, Option.some.injEq] at hx
      exact absurd hx (by decide)
    · rw [if_neg h]
      simpa using h

theorem lf2crlf_eq_nil {s : Str} (h : lf2crlf s = []) : s = [] := by
  cases s with
  | nil => rfl
  | cons c cs =>
    rw [lf2crlf] at h
    by_cases hc : c = '\n'
    · rw [if_pos hc] at h
      exact absurd h (by simp)
    · rw [if_neg hc] at h
      exact absurd h (by simp)

theorem crlf2lf_lf2crlf : ∀ (s : Str), crlf2lf (lf2crlf s) = s := by
  intro s
  induction s with
  | nil => rfl
  | cons c cs ih =>
    by_cases h : c = '\n'
    · subst h
      rw [lf2crlf, if_pos rfl, crlf2lf, if_pos ⟨rfl, rfl⟩, ih]
    · rw [lf2crlf, if_neg h]
      cases hc : lf2crlf cs with
      | nil =>
        rw [lf2crlf_eq_nil hc]
        rfl
      | cons d ds =>
        have hd : d ≠ '\n' := by
          have := lf2crlf_head cs
          rw [hc] at this
          simpa using this
        rw [crlf2lf, if_neg (by rintro ⟨_, h2⟩; exact hd h2), ← hc, ih]

theorem crlf2lf_no_cr : ∀ {s : Str}, ('\r' : Char) ∉ s → crlf2lf s = s := by
  intro s
  induction s with
  | nil => intro _; rfl
  | cons c cs ih =>
    intro h
    have hc : c ≠ '\r' := fun hc => h (hc ▸ List.mem_cons_self c cs)
    have hcs : ('\r' : Char) ∉ cs := fun hm => h (List.mem_cons_of_mem c hm)
    cases cs with
    | nil => rfl
    | cons d ds =>
      simp only [crlf2lf]
      rw [if_neg (by rintro ⟨h1, _⟩; exact hc h1), ih hcs]

theorem lf2crlf_append : ∀ (a b : Str), lf2crlf (a ++ b) = lf2crlf a ++ lf2crlf b := by
  intro a b
  induction a with
  | nil => rfl
  | cons c cs ih =>
    show lf2crlf (c :: (cs ++ b)) = lf2crlf (c :: cs) ++ lf2crlf b
    rw [lf2crlf, lf2crlf]
    by_cases h : c = '\n'
    · rw [if_pos h, if_pos h, ih]
      rfl
    · rw [if_neg h, if_neg h, ih]
      rfl

theorem head_dropWhile_false (p : Char → Bool) :
    ∀ (l : Str) {c : Char}, (l.dropWhile p).head? = some c → p c = false := by
  intro l
  induction l with
  | nil => intro c h; simp [List.dropWhile] at h
  | cons a as1 ih =>
    intro c h
    by_cases hp : p a
    · rw [List.dropWhile_cons_of_pos hp] at h
      exact ih h
    · rw [List.dropWhile_cons_of_neg hp] at h
      simp only [List.head?_cons, Option.some.injEq] at h
      rw [← h]
      exact Bool.eq_false_iff.mpr hp

theorem stripTrailingLf_getLast {s : Str} : (stripTrailingLf s).getLast? ≠ some '\n' := by
  unfold stripTrailingLf
  rw [List.getLast?_reverse]
  cases h : (s.reverse.dropWhile (fun c => c == '\n')).head? with
  | none => simp
  | some c =>
    have := head_dropWhile_false (fun c => c == '\n') s.reverse h
    intro hc
    simp only [Option.some.injEq] at hc
    rw [hc] at this
    simp at this

theorem stripTrailingLf_append_nl (s : Str) :
    stripTrailingLf (s ++ ['\n']) = stripTrailingLf s := by
  unfold stripTrailingLf
  rw [List.reverse_append]
  simp [List.dropWhile]

theorem stripTrailingLf_of_getLast {s : Str} (h : s.getLast? ≠ some '\n') :
    stripTrailingLf s = s := by
  unfold stripTrailingLf
  cases hs : s.reverse with
  | nil =>
    have hnil : s = [] := by simpa using congrArg List.reverse hs
    subst hnil
    rfl
  | cons c cs =>
    have hlast : s.getLast? = some c := by
      rw [← List.head?_reverse, hs]
      rfl
    have hc : ¬ ((c == '\n') = true) := by
      intro hb
      have hcn : c = '\n' := by simpa using hb
      exact h (by rw [hlast, hcn])
    rw [List.dropWhile_cons, if_neg hc, ← hs, List.reverse_reverse]

theorem stripTrailingLf_idem (s : Str) :
    stripTrailingLf (stripTrailingLf s) = stripTrailingLf s :=
  stripTrailingLf_of_getLast stripTrailingLf_getLast

theorem mem_stripTrailingLf {a : Char} {s : Str} (h : a ∈ stripTrailingLf s) : a ∈ s := by
  unfold stripTrailingLf at h
  rw [List.mem_reverse] at h
  have := (List.dropWhile_sublist (fun c => c == '\n') (l := s.reverse)).mem h
  rwa [List.mem_reverse] at this

theorem lf2crlf_ne_nil {s : Str} (h : s ≠ []) : lf2crlf s ≠ [] :=
  fun hn => h (lf2crlf_eq_nil hn)

theorem lf2crlf_getLast {s : Str} (h : s.getLast? ≠ some '\n') :
    (lf2crlf s).getLast? ≠ some '\n' := by
  induction s with
  | nil => simp [lf2crlf]
  | cons c cs ih =>
    cases hcs : cs with
    | nil =>
      subst hcs
      have hc : c ≠ '\n' := by
        intro hc
        exact h (by rw [hc]; rfl)
      rw [lf2crlf, if_neg hc]
      simpa [lf2crlf] using hc
    | cons d ds =>
      have hne : cs ≠ [] := by rw [hcs]; simp
      have hlast : (c :: cs).getLast? = cs.getLast? := by
        show ((c :: []) ++ cs).getLast? = cs.getLast?
        exact List.getLast?_append_of_ne_nil _ hne
      rw [hlast] at h
      have htail := ih h
      rw [← hcs]
      have hsplit : lf2crlf (c :: cs) =
          (if c = '\n' then ['\r', '\n'] else [c]) ++ lf2crlf cs := by
        rw [lf2crlf]
        by_cases hc : c = '\n'
        · rw [if_pos hc, if_pos hc]
          rfl
        · rw [if_neg hc, if_neg hc]
          rfl
      rw [hsplit, List.getLast?_append_of_ne_nil _ (lf2crlf_ne_nil hne)]
      exact htail

theorem allNlCrlf_lf2crlf : ∀ (s : Str), allNlCrlf (lf2crlf s) = true := by
  intro s
  induction s with
  | nil => rfl
  | cons c cs ih =>
    by_cases h : c = '\n'
    · rw [lf2crlf, if_pos h]
      show allNlCrlf ('\r' :: '\n' :: lf2crlf cs) = true
      rw [allNlCrlf, if_pos ⟨rfl, rfl⟩]
      exact ih
    · rw [lf2crlf, if_neg h]
      cases hc : lf2crlf cs with
      | nil =>
        show (c != '\n') = true
        simpa using h
      | cons d ds =>
        have hd : d ≠ '\n' := by
          have := lf2crlf_head cs
          rw [hc] at this
          simpa using this
        rw [allNlCrlf, if_neg (by rintro ⟨_, h2⟩; exact hd h2), if_neg h, ← hc]
        exact ih

theorem stripTrailingLf_append_crnl (x : Str) :
    stripTrailingLf (x ++ ['\r', '\n']) = x ++ ['\r'] := by
  unfold stripTrailingLf
  rw [List.reverse_append]
  show (List.dropWhile (fun c => c == '\n') ('\n' :: '\r' :: x.reverse)).reverse = x ++ ['\r']
  rw [List.dropWhile_cons, if_pos (by decide), List.dropWhile_cons, if_neg (by decide)]
  rw [List.reverse_cons, List.reverse_reverse]

/-- The canonical comparison form of the text written back by the
normalizer equals the canonical form of the blocks: stripping trailing line
feeds after LF-normalizing the written file recovers the stripped blank-line
join. -/
theorem finalText_strip (blocks : List Str) (page : Str)
    (hr : ('\r' : Char) ∉ joinBlocks blocks) :
    stripTrailingLf (crlf2lf (finalText blocks page)) =
      stripTrailingLf (joinBlocks blocks) := by
  have hrnc : ('\r' : Char) ∉ stripTrailingLf (joinBlocks blocks) :=
    fun hm => hr (mem_stripTrailingLf hm)
  have hstrip : ∀ t : Str, t = ['\n'] ∨ t = [] →
      stripTrailingLf (stripTrailingLf (joinBlocks blocks) ++ t) =
        stripTrailingLf (joinBlocks blocks) := by
    intro t ht
    rcases ht with rfl | rfl
    · rw [stripTrailingLf_append_nl, stripTrailingLf_idem]
    · rw [List.append_nil, stripTrailingLf_idem]
  have htail : (if hadTrailingNl page then ['\n'] else []) = ['\n'] ∨
      (if hadTrailingNl page then ['\n'] else []) = [] := by
    by_cases hnl : hadTrailingNl page
    · left; rw [if_pos hnl]
    · right; rw [if_neg hnl]
  simp only [finalText]
  by_cases hcr : containsCrlf page
  · rw [if_pos hcr, crlf2lf_lf2crlf]
    exact hstrip _ htail
  · rw [if_neg hcr]
    have hno : ('\r' : Char) ∉
        stripTrailingLf (joinBlocks blocks) ++ (if hadTrailingNl page then ['\n'] else []) := by
      intro hm
      rcases List.mem_append.mp hm with h1 | h2
      · exact hrnc h1
      · rcases htail with ht | ht <;> rw [ht] at h2 <;> simp at h2
    rw [crlf2lf_no_cr hno]
    exact hstrip _ htail

/-- C2: page normalization is idempotent at the text level.  When a pass
over a page rewrites it (the canonical form differs and the shown text is
written back), a second pass over the written file with the same rendered
blocks — the providers of the normalized file render verbatim to the same
blocks, the external parser being newline-normalizing so blocks carry no
carriage return — finds no difference and performs no rewrite. -/
theorem normalize_idempotent_c2 (blocks : List Str) (page final : Str)
    (hr : ('\r' : Char) ∉ joinBlocks blocks)
    (hw : normalizeResult blocks page = some final) :
    normalizeResult blocks final = none := by
  have hfinal : final = finalText blocks page := by
    simp only [normalizeResult] at hw
    split_ifs at hw with h
    exact (Option.some.inj hw).symm
  have hkey : stripTrailingLf (crlf2lf final) = stripTrailingLf (joinBlocks blocks) := by
    rw [hfinal]
    exact finalText_strip blocks page hr
  simp only [normalizeResult]
  rw [hkey, if_pos rfl]

def c2blocks : List Str :=
  [("<span for-slot=\"title\">Home</span>").data,
   ("<div for-slot=\"body\"><p>Hi</p></div>").data]

def c2page : Str := ("<div for-slot=\"body\"><p>Hi</p></div>\r\n").data

/-- C2, witness: a concrete page whose first normalization rewrites it; the
second pass over the written text is a no-op. -/
theorem normalize_idempotent_c2_witness :
    normalizeResult c2blocks (finalText c2blocks c2page) = none :=
  normalize_idempotent_c2 c2blocks c2page (finalText c2blocks c2page)
    (by decide) (by decide)

/-- C5: the text written back by the normalizer restores the original file's
conventions: its LF-normalized stripped content is exactly the stripped
blank-line join of the rendered blocks; when the original contained a CRLF,
every line feed of the result is part of a CRLF pair; when it did not, the
result contains no carriage return at all; the result ends in a (single)
trailing newline exactly when the original file ended with a newline.
The hypothesis that the blocks carry no carriage return reflects the
newline-normalizing external parser they are serialized from. -/
theorem finalText_conventions_c5 (blocks : List Str) (page final : Str)
    (hr : ('\r' : Char) ∉ joinBlocks blocks)
    (hw : normalizeResult blocks page = some final) :
    stripTrailingLf (crlf2lf final) = stripTrailingLf (joinBlocks blocks) ∧
    (containsCrlf page = true → allNlCrlf final = true) ∧
    (containsCrlf page = false → ('\r' : Char) ∉ final) ∧
    (hadTrailingNl page = false → final.getLast? ≠ some '\n') ∧
    (hadTrailingNl page = true →
      final.getLast? = some '\n' ∧ stripTrailingLf final ++ ['\n'] = final) := by
  have hfinal : final = finalText blocks page := by
    simp only [normalizeResult] at hw
    split_ifs at hw with h
    exact (Option.some.inj hw).symm
  have hrnc : ('\r' : Char) ∉ stripTrailingLf (joinBlocks blocks) :=
    fun hm => hr (mem_stripTrailingLf hm)
  subst hfinal
  refine ⟨finalText_strip blocks page hr, ?_, ?_, ?_, ?_⟩
  · intro hcr
    simp only [finalText, hcr, ite_true]
    exact allNlCrlf_lf2crlf _
  · intro hcr
    simp only [finalText, hcr, Bool.false_eq_true, ite_false]
    intro hm
    rcases List.mem_append.mp hm with h1 | h2
    · exact hrnc h1
    · by_cases hnl : hadTrailingNl page
      · rw [if_pos hnl] at h2
        simp at h2
      · rw [if_neg hnl] at h2
        simp at h2
  · intro hnl
    simp only [finalText, hnl, Bool.false_eq_true, ite_false, List.append_nil]
    by_cases hcr : containsCrlf page
    · rw [if_pos hcr]
      exact lf2crlf_getLast stripTrailingLf_getLast
    · rw [if_neg hcr]
      exact stripTrailingLf_getLast
  · intro hnl
    simp only [finalText, hnl, ite_true]
    by_cases hcr : containsCrlf page
    · rw [if_pos hcr, lf2crlf_append]
      have hcrnl : lf2crlf ['\n'] = ['\r', '\n'] := rfl
      rw [hcrnl]
      constructor
      · have hsplit2 : lf2crlf (stripTrailingLf (joinBlocks blocks)) ++ ['\r', '\n'] =
            (lf2crlf (stripTrailingLf (joinBlocks blocks)) ++ ['\r']) ++ ['\n'] := by
          simp
        rw [hsplit2, List.getLast?_concat]
      · rw [stripTrailingLf_append_crnl]
        simp
    · rw [if_neg hcr]
      constructor
      · rw [List.getLast?_concat]
      · rw [stripTrailingLf_append_nl, stripTrailingLf_idem]

def c5blocks : List Str := [("<span for-slot=\"title\">Home</span>").data]

def c5page : Str := ("old content\r\n").data

/-- C5, witness: the conventions theorem applied at a concrete CRLF page
with a trailing newline. -/
theorem finalText_conventions_c5_witness :
    (containsCrlf c5page = true →
      allNlCrlf (finalText c5blocks c5page) = true) ∧
    (hadTrailingNl c5page = true →
      (finalText c5blocks c5page).getLast? = some '\n' ∧
      stripTrailingLf (finalText c5blocks c5page) ++ ['\n'] = finalText c5blocks c5page) :=
  ⟨((finalText_conventions_c5 c5blocks c5page (finalText c5blocks c5page)
      (by decide) (by decide)).2).1,
   ((((finalText_conventions_c5 c5blocks c5page (finalText c5blocks c5page)
      (by decide) (by decide)).2).2).2).2⟩

/-! ## Per-page build loop: unknown-slot rejection (C3) -/

/-- Embeds `default_slot_provider`: the placeholder content synthesized for a
slot the page does not provide. -/
def default_slot_provider (slot : SlotSpec) : PageSlotContent :=
  let attrs1 : List (Str × Str) := [(forSlotLit, slot.name)]
  let attrs2 :=
    if startsWithStr attrColon slot.mode then attrs1 ++ [(slot.mode.drop 5, [])]
    else attrs1
  { tag := slot.layout_tag, inner_html := [], attributes := attrs2,
    original_html := none, closing_style := slot.closing_style }

/-- The completion of a page's provider map with placeholders for every
catalog slot it misses (`page_slots_for_merge`). -/
def withDefaults (slots : List SlotSpec) (m : List (Str × PageSlotContent)) :
    List (Str × PageSlotContent) :=
  slots.foldl
    (fun acc slot =>
      if hasKey acc slot.name then acc
      else acc ++ [(slot.name, default_slot_provider slot)]) m

/-- The output-producing merge loop of `build_once`: each catalog slot in
order, merged into the running layout text. -/
def mergeAll (layout : Str) (slots : List SlotSpec)
    (m : List (Str × PageSlotContent)) : Str :=
  slots.foldl
    (fun html slot =>
      match lookupContent m slot.name with
      | some content => merge_slot_string html slot content
      | none => html) layout

/-- One page as the build loop sees it after extraction: its output file name
and its extracted provider map. -/
structure PageInput where
  name : Str
  provided : List (Str × PageSlotContent)

/-- The unknown-slot scan of `build_once`: provider names absent from the
layout catalog. -/
def pageExtras (layoutNames : List Str) (p : PageInput) : List Str :=
  (p.provided.map Prod.fst).filter (fun n => !(layoutNames.contains n))

/-- The per-build accumulation the loop carries: the overall success flag,
the outputs written, and the unknown-slot diagnostics. -/
structure BuildState where
  ok : Bool
  outputs : List (Str × Str)
  errors : List (Str × List Str)

/-- The merged output document of one page. -/
def pageOutput (layout : Str) (slots : List SlotSpec) (p : PageInput) : Str :=
  mergeAll layout slots (withDefaults slots p.provided)

/-- One iteration of the page loop: a page with unknown slots logs a
diagnostic naming them, marks the build failed and is skipped before
normalization and merging; any other page is normalized and merged, and its
output is written. -/
def processPage (layout : Str) (slots : List SlotSpec) (layoutNames : List Str)
    (st : BuildState) (p : PageInput) : BuildState :=
  let extra := pageExtras layoutNames p
  if extra ≠ [] then
    { ok := false, outputs := st.outputs, errors := st.errors ++ [(p.name, extra)] }
  else
    { ok := st.ok, outputs := st.outputs ++ [(p.name, pageOutput layout slots p)],
      errors := st.errors }

/-- The page loop of `build_once` over the pages of one build. -/
def buildPages (layout : Str) (slots : List SlotSpec) (pages : List PageInput) :
    BuildState :=
  pages.foldl (processPage layout slots (slots.map SlotSpec.name))
    { ok := true, outputs := [], errors := [] }

theorem buildPages_outputs (layout : Str) (slots : List SlotSpec)
    (layoutNames : List Str) :
    ∀ (pages : List PageInput) (st0 : BuildState),
      (pages.foldl (processPage layout slots layoutNames) st0).outputs =
        st0.outputs ++
          (pages.filter (fun q => (pageExtras layoutNames q).isEmpty)).map
            (fun q => (q.name, pageOutput layout slots q)) := by
  intro pages
  induction pages with
  | nil => intro st0; simp
  | cons p ps ih =>
    intro st0
    simp only [List.foldl_cons]
    rw [ih]
    by_cases hx : pageExtras layoutNames p = []
    · have hcond : (pageExtras layoutNames p).isEmpty = true := by
        rw [hx]; rfl
      rw [List.filter_cons, if_pos hcond]
      simp only [processPage]
      rw [if_neg (not_not_intro hx)]
      simp
    · have hcond : ¬ (pageExtras layoutNames p).isEmpty = true := by
        cases hpe : pageExtras layoutNames p with
        | nil => exact absurd hpe hx
        | cons a l => simp
      rw [List.filter_cons, if_neg hcond]
      simp only [processPage]
      rw [if_pos hx]

theorem buildPages_errors (layout : Str) (slots : List SlotSpec)
    (layoutNames : List Str) :
    ∀ (pages : List PageInput) (st0 : BuildState),
      (pages.foldl (processPage layout slots layoutNames) st0).errors =
        st0.errors ++
          (pages.filter (fun q => !(pageExtras layoutNames q).isEmpty)).map
            (fun q => (q.name, pageExtras layoutNames q)) := by
  intro pages
  induction pages with
  | nil => intro st0; simp
  | cons p ps ih =>
    intro st0
    simp only [List.foldl_cons]
    rw [ih]
    by_cases hx : pageExtras layoutNames p = []
    · have hcond : ¬ (!(pageExtras layoutNames p).isEmpty) = true := by
        rw [hx]; simp
      rw [List.filter_cons, if_neg hcond]
      simp only [processPage]
      rw [if_neg (not_not_intro hx)]
    · have hcond : (!(pageExtras layoutNames p).isEmpty) = true := by
        cases hpe : pageExtras layoutNames p with
        | nil => exact absurd hpe hx
        | cons a l => simp
      rw [List.filter_cons, if_pos hcond]
      simp only [processPage]
      rw [if_pos hx]
      simp

theorem buildPages_ok (layout : Str) (slots : List SlotSpec)
    (layoutNames : List Str) :
    ∀ (pages : List PageInput) (st0 : BuildState),
      (pages.foldl (processPage layout slots layoutNames) st0).ok =
        (st0.ok && pages.all (fun q => (pageExtras layoutNames q).isEmpty)) := by
  intro pages
  induction pages with
  | nil => intro st0; simp
  | cons p ps ih =>
    intro st0
    simp only [List.foldl_cons, List.all_cons]
    rw [ih]
    by_cases hx : pageExtras layoutNames p = []
    · have hcond : (pageExtras layoutNames p).isEmpty = true := by
        rw [hx]; rfl
      simp only [processPage]
      rw [if_neg (not_not_intro hx)]
      rw [hcond]
      simp
    · have hcond : (pageExtras layoutNames p).isEmpty = false := by
        cases hpe : pageExtras layoutNames p with
        | nil => exact absurd hpe hx
        | cons a l => rfl
      simp only [processPage]
      rw [if_pos hx]
      rw [hcond]
      simp

/-- C3: a page whose provider map references a slot name absent from the
layout catalog makes the build fail with a diagnostic naming the offending
names, produces no output entry (the page is skipped in the iteration before
normalization and merging, as the skip branch of `processPage` shows), and
every sibling page referencing only known slots still has its merged output
written. -/
theorem unknown_slot_rejection_c3 (layout : Str) (slots : List SlotSpec)
    (pages : List PageInput) (p : PageInput)
    (hp : p ∈ pages)
    (hx : pageExtras (slots.map SlotSpec.name) p ≠ [])
    (hnames : (pages.map PageInput.name).Nodup) :
    (buildPages layout slots pages).ok = false ∧
    (p.name, pageExtras (slots.map SlotSpec.name) p) ∈
      (buildPages layout slots pages).errors ∧
    p.name ∉ (buildPages layout slots pages).outputs.map Prod.fst ∧
    (∀ q ∈ pages, pageExtras (slots.map SlotSpec.name) q = [] →
      (q.name, pageOutput layout slots q) ∈ (buildPages layout slots pages).outputs) := by
  have hxe : (pageExtras (slots.map SlotSpec.name) p).isEmpty = false := by
    cases hpe : pageExtras (slots.map SlotSpec.name) p with
    | nil => exact absurd hpe hx
    | cons a l => rfl
  refine ⟨?_, ?_, ?_, ?_⟩
  · rw [buildPages, buildPages_ok]
    simp only [Bool.true_and]
    rw [Bool.eq_false_iff]
    intro hall
    rw [List.all_eq_true] at hall
    have := hall p hp
    rw [hxe] at this
    exact Bool.false_ne_true this
  · rw [buildPages, buildPages_errors]
    simp only [List.nil_append]
    refine List.mem_map_of_mem _ (List.mem_filter.mpr ⟨hp, ?_⟩)
    rw [hxe]
    rfl
  · rw [buildPages, buildPages_outputs]
    simp only [List.nil_append]
    intro hmem
    rw [List.map_map, List.mem_map] at hmem
    obtain ⟨q, hqf, hqn⟩ := hmem
    have hq : q ∈ pages := List.mem_of_mem_filter hqf
    have hqe : (pageExtras (slots.map SlotSpec.name) q).isEmpty = true :=
      (List.mem_filter.mp hqf).2
    have hqname : q.name = p.name := hqn
    have hqp : q = p :=
      List.inj_on_of_nodup_map hnames hq hp hqname
    rw [hqp, hxe] at hqe
    exact Bool.false_ne_true hqe
  · intro q hq hqe
    rw [buildPages, buildPages_outputs]
    simp only [List.nil_append]
    refine List.mem_map_of_mem _ (List.mem_filter.mpr ⟨hq, ?_⟩)
    rw [hqe]
    rfl

def c3slots : List SlotSpec :=
  [{ name := ("title").data, mode := ("html").data, layout_tag := ("title").data,
     closing_style := SlotClosingStyle.Explicit }]

def c3ghost : PageInput :=
  { name := ("ghost.html").data,
    provided := [(("ghost").data,
      { tag := ("span").data, inner_html := [], attributes := [],
        original_html := none, closing_style := SlotClosingStyle.Explicit })] }

def c3good : PageInput :=
  { name := ("index.html").data,
    provided := [(("title").data,
      { tag := ("span").data, inner_html := ("Home").data, attributes := [],
        original_html := none, closing_style := SlotClosingStyle.Explicit })] }

def c3layout : Str := ("<title slot=\"title\"></title>").data

/-- C3, witness: a page providing an unknown slot fails the build and leaves
no output, while the sibling page builds. -/
theorem unknown_slot_rejection_c3_witness :
    (buildPages c3layout c3slots [c3ghost, c3good]).ok = false ∧
    (c3ghost.name, pageExtras (c3slots.map SlotSpec.name) c3ghost) ∈
      (buildPages c3layout c3slots [c3ghost, c3good]).errors ∧
    c3ghost.name ∉ (buildPages c3layout c3slots [c3ghost, c3good]).outputs.map Prod.fst ∧
    (∀ q ∈ [c3ghost, c3good], pageExtras (c3slots.map SlotSpec.name) q = [] →
      (q.name, pageOutput c3layout c3slots q) ∈
        (buildPages c3layout c3slots [c3ghost, c3good]).outputs) :=
  unknown_slot_rejection_c3 c3layout c3slots [c3ghost, c3good] c3ghost
    (List.mem_cons_self _ _) (by decide) (by decide)

/-! ## Rebuild classification (C6) -/

/-- Filesystem paths are modelled as absolute component lists; the
filesystem itself (existence, canonicalization, the source-directory
listing, and presence of output files by name) enters as explicit data,
since the program consumes it as an external collaborator. -/
abbrev FsPath := List Str

structure WatchEnv where
  src_dir : FsPath
  layout_path : FsPath
  src_dir_canonical : FsPath
  present : FsPath → Bool
  canon : FsPath → Option FsPath
  srcEntries : List FsPath
  outHasFile : Str → Bool

/-- ASCII case-insensitive string equality (`eq_ignore_ascii_case`). -/
def ciStrEq (a b : Str) : Bool := a.map Char.toLower == b.map Char.toLower

def layoutFileName : Str := ("_layout.html").data

/-- Embeds `paths_equivalent`: direct equality, or equality of the two
canonical forms when both canonicalizations succeed. -/
def paths_equivalent (env : WatchEnv) (a b : FsPath) : Bool :=
  a == b ||
    (match env.canon a, env.canon b with
     | some ca, some cb => ca == cb
     | _, _ => false)

/-- Embeds `build_layout_aliases`: the layout path and, when different, its
canonical form. -/
def build_layout_aliases (env : WatchEnv) : List FsPath :=
  let aliases := [env.layout_path]
  match env.canon env.layout_path with
  | some c => if aliases.contains c then aliases else aliases ++ [c]
  | none => aliases

/-- Embeds `Path::parent` for the component model. -/
def parentOf (p : FsPath) : Option FsPath :=
  match p with
  | [] => none
  | _ :: _ => some p.dropLast

/-- Embeds `Compiler::path_matches_layout`: equivalence with a layout alias,
or the case-insensitive layout file name with the source root (canonical or
raw) as parent. -/
def path_matches_layout (env : WatchEnv) (p : FsPath) (layout_aliases : List FsPath)
    (src_dir_canonical : FsPath) : Bool :=
  layout_aliases.any (fun al => paths_equivalent env al p) ||
    (match p.getLast? with
     | some file_name =>
       if ciStrEq file_name layoutFileName then
         match parentOf p with
         | some parent =>
           paths_equivalent env parent src_dir_canonical ||
             paths_equivalent env parent env.src_dir
         | none => false
       else false
     | none => false)

/-- Embeds `Path::extension` on a file name: the part after the last dot,
absent when there is no dot or the only dot leads the name. -/
def extOf (n : Str) : Option Str :=
  let r := n.reverse.takeWhile (fun c => !(c == '.'))
  if r.length = n.length then none
  else if r.length + 1 = n.length then none
  else some r.reverse

/-- Embeds `Compiler::is_html_file`: a case-insensitive `html` extension. -/
def is_html_file (p : FsPath) : Bool :=
  match p.getLast? with
  | some n =>
    match extOf n with
    | some e => ciStrEq e (("html").data)
    | none => false
  | none => false

/-- Embeds `Compiler::path_missing_with_retry`; in a pure filesystem
snapshot the bounded retries collapse to the single existence test. -/
def path_missing_with_retry (env : WatchEnv) (p : FsPath) : Bool :=
  !(env.present p)

/-- Embeds `Compiler::normalize_watch_path`; watch notifications deliver
absolute paths, so the relative-join branch of the source is not
exercised. -/
def normalize_watch_path (env : WatchEnv) (p : FsPath) (src_dir_canonical : FsPath)
    (layout_aliases : List FsPath) : Option FsPath :=
  let candidate := match env.canon p with | some c => c | none => p
  if !(env.present candidate) then none
  else if !(List.isPrefixOf src_dir_canonical candidate) then none
  else if path_matches_layout env candidate layout_aliases src_dir_canonical then none
  else if !(is_html_file candidate) then none
  else some candidate

/-- The full-rebuild classification of `build_once`: an absent batch, an
empty batch, a still-missing path, a path resolving to the layout, or — the
escalation scan — an existing source page whose output file is absent. -/
def full_rebuild_flag (env : WatchEnv) (changed : Option (List FsPath)) : Bool :=
  let aliases := build_layout_aliases env
  let srcCanon := env.src_dir_canonical
  let base :=
    match changed with
    | none => true
    | some paths =>
      paths.isEmpty ||
        paths.any (fun p => path_missing_with_retry env p) ||
        paths.any (fun p => path_matches_layout env p aliases srcCanon)
  if base then true
  else
    env.srcEntries.any (fun p =>
      is_html_file p &&
        (match p.getLast? with
         | some fn => !(ciStrEq fn layoutFileName) && !(env.outHasFile fn)
         | none => false))

/-- The seen-set deduplication of the partial-rebuild page list. -/
def dedupGo (seen : List FsPath) : List FsPath → List FsPath
  | [] => []
  | p :: rest =>
    if seen.contains p then dedupGo seen rest
    else p :: dedupGo (seen ++ [p]) rest

def dedupFirst (l : List FsPath) : List FsPath := dedupGo [] l

/-- The page selection of `build_once`: every resolvable source entry on a
full rebuild, the deduplicated resolved batch paths on a partial rebuild. -/
def page_paths (env : WatchEnv) (changed : Option (List FsPath)) : List FsPath :=
  let aliases := build_layout_aliases env
  let srcCanon := env.src_dir_canonical
  if full_rebuild_flag env changed then
    env.srcEntries.filterMap (fun p => normalize_watch_path env p srcCanon aliases)
  else
    match changed with
    | some paths =>
      dedupFirst (paths.filterMap (fun p => normalize_watch_path env p srcCanon aliases))
    | none => []

/-- C6: a drained batch is classified as a full rebuild whenever it is
empty, contains a path still missing after the retry window, or contains a
path resolving to the layout file (by alias equivalence — direct or
canonical path equality — or by the case-insensitive layout file name under
the source root); and a partial rebuild happens only for batches meeting
none of these conditions, in which case the processed pages are exactly the
deduplicated resolved page paths of the batch. -/
theorem rebuild_classification_c6 (env : WatchEnv) (changed : List FsPath) :
    ((changed = [] ∨
      (∃ p ∈ changed, path_missing_with_retry env p = true) ∨
      (∃ p ∈ changed,
        path_matches_layout env p (build_layout_aliases env) env.src_dir_canonical = true)) →
      full_rebuild_flag env (some changed) = true) ∧
    (full_rebuild_flag env (some changed) = false →
      (¬ changed = [] ∧
       (∀ p ∈ changed, path_missing_with_retry env p = false) ∧
       (∀ p ∈ changed,
         path_matches_layout env p (build_layout_aliases env) env.src_dir_canonical = false) ∧
       page_paths env (some changed) =
         dedupFirst (changed.filterMap
           (fun p =>
             normalize_watch_path env p env.src_dir_canonical (build_layout_aliases env))))) := by
  constructor
  · intro h
    simp only [full_rebuild_flag]
    have hbase : (changed.isEmpty ||
        changed.any (fun p => path_missing_with_retry env p) ||
        changed.any (fun p =>
          path_matches_layout env p (build_layout_aliases env) env.src_dir_canonical)) = true := by
      rcases h with h | h | h
      · rw [h]
        rfl
      · obtain ⟨p, hp, hm⟩ := h
        have hany : changed.any (fun p => path_missing_with_retry env p) = true :=
          List.any_eq_true.mpr ⟨p, hp, hm⟩
        rw [hany]
        simp
      · obtain ⟨p, hp, hm⟩ := h
        have hany : changed.any (fun p =>
            path_matches_layout env p (build_layout_aliases env) env.src_dir_canonical) = true :=
          List.any_eq_true.mpr ⟨p, hp, hm⟩
        rw [hany]
        simp
    rw [if_pos hbase]
  · intro h
    have h2 := h
    simp only [full_rebuild_flag] at h2
    by_cases hbase : (changed.isEmpty ||
        changed.any (fun p => path_missing_with_retry env p) ||
        changed.any (fun p =>
          path_matches_layout env p (build_layout_aliases env) env.src_dir_canonical)) = true
    · rw [if_pos hbase] at h2
      exact absurd h2 (by decide)
    · have hsplit := hbase
      rw [Bool.or_eq_true, Bool.or_eq_true] at hsplit
      push_neg at hsplit
      obtain ⟨⟨hempty, hmiss⟩, hlay⟩ := hsplit
      refine ⟨?_, ?_, ?_, ?_⟩
      · intro hnil
        rw [hnil] at hempty
        exact hempty rfl
      · intro p hp
        rcases Bool.eq_false_or_eq_true (path_missing_with_retry env p) with hf | ht
        · exact absurd (List.any_eq_true.mpr ⟨p, hp, hf⟩) hmiss
        · exact ht
      · intro p hp
        rcases Bool.eq_false_or_eq_true
          (path_matches_layout env p (build_layout_aliases env) env.src_dir_canonical)
          with hf | ht
        · exact absurd (List.any_eq_true.mpr ⟨p, hp, hf⟩) hlay
        · exact ht
      · simp only [page_paths]
        rw [if_neg (by rw [h]; decide)]

def c6env : WatchEnv :=
  { src_dir := [("home").data, ("site").data, ("src").data],
    layout_path := [("home").data, ("site").data, ("src").data, ("_layout.html").data],
    src_dir_canonical := [("home").data, ("site").data, ("src").data],
    present := fun _ => true,
    canon := fun p => some p,
    srcEntries := [],
    outHasFile := fun _ => true }

def c6layoutTouch : FsPath :=
  [("home").data, ("site").data, ("src").data, ("_LAYOUT.HTML").data]

def c6page : FsPath :=
  [("home").data, ("site").data, ("src").data, ("index.html").data]

/-- C6, witness: a batch bundling an ordinary page with a path carrying the
layout file name (case-insensitively) under the source root is classified as
a full rebuild. -/
theorem rebuild_classification_c6_witness :
    full_rebuild_flag c6env (some [c6page, c6layoutTouch]) = true :=
  (rebuild_classification_c6 c6env [c6page, c6layoutTouch]).1
    (Or.inr (Or.inr ⟨c6layoutTouch, by decide, by decide⟩))

/-! ## Asset synchronization (C9) -/

/-- One file of the source walk: its path relative to the source root (also
its mirrored destination path) and its content.  The digest primitive enters
as an opaque function, the destination state as a content map. -/
structure AssetFile where
  rel : FsPath
  content : Str
deriving DecidableEq

def dotHtml : Str := (".html").data

/-- The asset-candidate test of `copy_assets_diff`: the file name must not
end in the page extension — a case-sensitive suffix test in the source. -/
def isAssetCandidate (file_name : Str) : Bool := !(endsWithStr dotHtml file_name)

/-- The case-insensitive page-extension suffix test the specification
describes; this is the reading the claim gives of the asset skip. -/
def ciEndsWithHtml (file_name : Str) : Bool :=
  endsWithStr dotHtml (file_name.map Char.toLower)

/-- The copy decision of `copy_assets_diff`: copy when the destination is
absent or the two content digests differ (`file_hash_equal`). -/
def assetNeedsCopy (digest : Str → Nat) (dst : FsPath → Option Str)
    (f : AssetFile) : Bool :=
  match dst f.rel with
  | some existing => !(digest f.content == digest existing)
  | none => true

/-- The candidate-and-copy test of one walked file. -/
def assetCopied (digest : Str → Nat) (dst : FsPath → Option Str)
    (f : AssetFile) : Bool :=
  (match f.rel.getLast? with
   | some fn => isAssetCandidate fn
   | none => false) && assetNeedsCopy digest dst f

/-- Embeds the walk of `copy_assets_diff`: the relative paths of the files
actually copied, in walk order. -/
def copy_assets_diff (digest : Str → Nat) (dst : FsPath → Option Str)
    (files : List AssetFile) : List FsPath :=
  files.foldr
    (fun f acc =>
      match f.rel.getLast? with
      | some fn =>
        if !(isAssetCandidate fn) then acc
        else if assetNeedsCopy digest dst f then f.rel :: acc else acc
      | none => acc) []

theorem copy_assets_diff_eq (digest : Str → Nat) (dst : FsPath → Option Str) :
    ∀ files : List AssetFile,
      copy_assets_diff digest dst files =
        (files.filter (assetCopied digest dst)).map AssetFile.rel := by
  intro files
  induction files with
  | nil => rfl
  | cons f fs ih =>
    simp only [copy_assets_diff, List.foldr_cons] at *
    rw [List.filter_cons]
    cases hfn : f.rel.getLast? with
    | none =>
      have hc : assetCopied digest dst f = false := by
        simp only [assetCopied, hfn]
        rfl
      rw [hc]
      simp only [Bool.false_eq_true, if_false]
      exact ih
    | some fn =>
      by_cases hcand : isAssetCandidate fn = true
      · by_cases hneed : assetNeedsCopy digest dst f = true
        · have hc : assetCopied digest dst f = true := by
            simp only [assetCopied, hfn, hcand, hneed]
            rfl
          rw [hc, if_pos rfl]
          simp only [hcand, Bool.not_true, Bool.false_eq_true, if_false]
          rw [if_pos hneed, ih]
          rfl
        · have hneedf : assetNeedsCopy digest dst f = false :=
            Bool.eq_false_iff.mpr hneed
          have hc : assetCopied digest dst f = false := by
            simp only [assetCopied, hfn, hcand, hneedf]
            rfl
          rw [hc]
          simp only [Bool.false_eq_true, if_false]
          simp only [hcand, Bool.not_true, Bool.false_eq_true, if_false]
          rw [if_neg (by rw [hneedf]; decide)]
          exact ih
      · have hcandf : isAssetCandidate fn = false := Bool.eq_false_iff.mpr hcand
        have hc : assetCopied digest dst f = false := by
          simp only [assetCopied, hfn, hcandf]
          rfl
        rw [hc]
        simp only [Bool.false_eq_true, if_false]
        simp only [hcandf, Bool.not_false, if_true]
        exact ih

/-- C9, counterexample: a file named with an upper-case page extension is an
asset candidate for the code — its name does not end in the lower-case
extension literal the source tests case-sensitively — although the
case-insensitive comparison the claim states would exclude it. -/
theorem asset_candidate_counterexample_c9 :
    isAssetCandidate (("A.HTML").data) = true ∧
    ciEndsWithHtml (("A.HTML").data) = true := by
  refine ⟨by decide, by decide⟩

/-- C9, amended: the asset pass treats a walked file as a candidate exactly
when its file name does not end in the lower-case page extension compared
case-sensitively, and copies a candidate exactly when its destination is
absent or the content digests of source and destination differ; when the
digests agree, no copy of that file is performed. -/
theorem asset_sync_c9 (digest : Str → Nat) (dst : FsPath → Option Str)
    (files : List AssetFile) (f : AssetFile)
    (hf : f ∈ files) (hnodup : (files.map AssetFile.rel).Nodup) :
    f.rel ∈ copy_assets_diff digest dst files ↔
      ((∃ fn, f.rel.getLast? = some fn ∧ endsWithStr dotHtml fn = false) ∧
       (dst f.rel = none ∨
        ∃ c, dst f.rel = some c ∧ digest f.content ≠ digest c)) := by
  rw [copy_assets_diff_eq]
  have hgood : f.rel ∈ (files.filter (assetCopied digest dst)).map AssetFile.rel ↔
      assetCopied digest dst f = true := by
    constructor
    · intro hm
      rw [List.mem_map] at hm
      obtain ⟨g, hgf, hgr⟩ := hm
      have hg : g ∈ files := List.mem_of_mem_filter hgf
      have : g = f := List.inj_on_of_nodup_map hnodup hg hf hgr
      rw [← this]
      exact (List.mem_filter.mp hgf).2
    · intro hc
      exact List.mem_map_of_mem _ (List.mem_filter.mpr ⟨hf, hc⟩)
  rw [hgood]
  constructor
  · intro hc
    simp only [assetCopied, Bool.and_eq_true] at hc
    obtain ⟨h1, h2⟩ := hc
    constructor
    · cases hfn : f.rel.getLast? with
      | none => rw [hfn] at h1; exact absurd h1 (by decide)
      | some fn =>
        rw [hfn] at h1
        refine ⟨fn, rfl, ?_⟩
        simp only [isAssetCandidate, Bool.not_eq_true'] at h1
        exact h1
    · simp only [assetNeedsCopy] at h2
      cases hd : dst f.rel with
      | none => exact Or.inl rfl
      | some c =>
        rw [hd] at h2
        right
        refine ⟨c, rfl, ?_⟩
        simp only [Bool.not_eq_true'] at h2
        intro he
        rw [he] at h2
        simp at h2
  · intro hc
    obtain ⟨⟨fn, hfn, hend⟩, hdst⟩ := hc
    simp only [assetCopied, hfn, Bool.and_eq_true]
    constructor
    · simp only [isAssetCandidate, hend]
      rfl
    · simp only [assetNeedsCopy]
      rcases hdst with hd | ⟨c, hd, hne⟩
      · rw [hd]
      · rw [hd]
        simp only [Bool.not_eq_true', beq_eq_false_iff_ne, ne_eq]
        exact hne

def c9file : AssetFile :=
  { rel := [("img").data, ("logo.png").data], content := ("PNGDATA").data }

/-- C9, witness: a changed asset (destination absent) is copied. -/
theorem asset_sync_c9_witness :
    c9file.rel ∈ copy_assets_diff (fun s => s.length) (fun _ => none) [c9file] :=
  (asset_sync_c9 (fun s => s.length) (fun _ => none) [c9file] c9file
    (List.mem_cons_self _ _) (by decide)).mpr
    ⟨⟨(("logo.png").data), rfl, by decide⟩, Or.inl rfl⟩

end HtmlSlot
